import Mathlib

/-!
# Verification of the squeak storage engine against its design specification

This file gives a shallow embedding of the parts of the squeak SQLite-reader
that the specification's claims are about, and settles each claim.

Modelling conventions.
* Machine integers are modelled as Nat / Int with explicit reductions modulo
  2 ^ 64 (or the relevant width) exactly where the Rust code can wrap.
* Bytes are Nat values; every byte produced by the embedded encoders is < 256.
* Fallible Rust code (anyhow::Result) becomes Option / Except; a Rust panic
  (assert!, todo!, out-of-bounds index, unwrap) is modelled by a dedicated
  failure value, kept distinct from returned errors where a claim depends on
  the difference.
* B-tree pages are modelled in parsed form: a page is a tree node holding the
  same cell data the byte-level accessors of BTreePage return.  The byte-level
  page-header layout itself is embedded separately where a claim is about it.
-/

namespace Squeak

/-- Interpret a 64-bit pattern as a signed two's-complement value
(the `result as i64` reinterpretation in varint::read). -/
def u64ToI64 (n : Nat) : Int :=
  if n < 2 ^ 63 then (n : Int) else (n : Int) - 2 ^ 64

/-- The 64-bit pattern of an i64 value (the `value as u64` cast). -/
def toU64 (v : Int) : Nat :=
  (v % (2 ^ 64 : Int)).toNat

/-- Number of significant bits of a natural number (0 for 0). -/
def bitLen (n : Nat) : Nat :=
  if n = 0 then 0 else Nat.log2 n + 1

/-- u64::leading_zeros of a 64-bit pattern. -/
def leadingZeros64 (n : Nat) : Nat := 64 - bitLen n

/-- The bit pattern of value.abs(): for i64::MIN the Rust abs wraps to
i64::MIN itself, whose u64 pattern is 2 ^ 63, which is what this returns. -/
def absPat (v : Int) : Nat := (if v < 0 then -v else v).toNat

namespace Varint

/-- The accumulator loop of varint::read.  One call handles one byte:
bytes 0..7 contribute their low seven bits, byte 8 (if reached) contributes
all eight bits.  An empty list models the out-of-bounds panic on a
truncated input. -/
def readAux : List Nat → Nat → Nat → Option (Nat × Nat)
  | [], _, _ => none
  | b :: rest, i, acc =>
    if 8 ≤ i then some ((acc * 256 + b) % 2 ^ 64, i + 1)
    else
      if b < 128 then some ((acc * 128 + b % 128) % 2 ^ 64, i + 1)
      else readAux rest (i + 1) ((acc * 128 + b % 128) % 2 ^ 64)

/-- varint::read: returns the decoded value and the number of bytes consumed. -/
def read (bytes : List Nat) : Option (Int × Nat) :=
  (readAux bytes 0 0).map fun p => (u64ToI64 p.1, p.2)

/-- The nine-byte branch of varint::write: eight continuation bytes carrying
seven bits each (shifted by one because the final byte carries eight bits),
then the low eight bits. -/
def nineList (u : Nat) : List Nat :=
  [u / 2 ^ 57 % 128 + 128, u / 2 ^ 50 % 128 + 128, u / 2 ^ 43 % 128 + 128,
   u / 2 ^ 36 % 128 + 128, u / 2 ^ 29 % 128 + 128, u / 2 ^ 22 % 128 + 128,
   u / 2 ^ 15 % 128 + 128, u / 2 ^ 8 % 128 + 128, u % 256]

/-- The short branch of varint::write: count bytes, seven payload bits each,
continuation bit (+128) on all but the last. -/
def shortList (u : Nat) (count : Nat) : List Nat :=
  (List.range count).map fun i =>
    let j := count - 1 - i
    if j = 0 then u % 128 else u / 2 ^ (7 * j) % 128 + 128

/-- varint::write, returning the bytes written (the Rust function fills a
buffer and returns the count; the returned list is exactly that many bytes). -/
def write (v : Int) : List Nat :=
  let bitsNeeded := 64 - leadingZeros64 (absPat v) + 1
  let bytesNeeded := (bitsNeeded + 7) / 7
  if 9 ≤ bytesNeeded then nineList (toU64 v)
  else shortList (toU64 v) bytesNeeded

end Varint

/-! ### Record codec (schema/record and schema/serialization) -/

/-- The serial-type codes of the record format (record/mod.rs, SerialType). -/
inductive SerialType where
  | null
  | i8
  | i16
  | i24
  | i32
  | i48
  | i64
  | f64
  | zero
  | one
  | blob (n : Nat)
  | text (n : Nat)
deriving DecidableEq

namespace SerialType

/-- From SerialType into i64 (the code written into a record header). -/
def code : SerialType → Int
  | .null => 0
  | .i8 => 1
  | .i16 => 2
  | .i24 => 3
  | .i32 => 4
  | .i48 => 5
  | .i64 => 6
  | .f64 => 7
  | .zero => 8
  | .one => 9
  | .blob n => (n : Int) * 2 + 12
  | .text n => (n : Int) * 2 + 13

/-- From i64 into SerialType; codes 10 and 11 panic (internal use), modelled
as none.  The (n - 12) as u64 casts are the emod reductions. -/
def ofCode (n : Int) : Option SerialType :=
  if n = 0 then some .null
  else if n = 1 then some .i8
  else if n = 2 then some .i16
  else if n = 3 then some .i24
  else if n = 4 then some .i32
  else if n = 5 then some .i48
  else if n = 6 then some .i64
  else if n = 7 then some .f64
  else if n = 8 then some .zero
  else if n = 9 then some .one
  else if n = 10 ∨ n = 11 then none
  else if n % 2 = 0 then some (.blob (((n - 12) % (2 ^ 64 : Int)).toNat / 2))
  else some (.text (((n - 13) % (2 ^ 64 : Int)).toNat / 2))

end SerialType

/-- A decoded column value (record/mod.rs, SerialValue).  The fixed-width
integer wrappers I16/I24/... hold the signed value their get() returns; f64
is kept as its 64-bit pattern (the code never computes with floats, it only
moves the eight raw bytes). -/
inductive SerialValue where
  | null
  | i8 (v : Int)
  | i16 (v : Int)
  | i24 (v : Int)
  | i32 (v : Int)
  | i48 (v : Int)
  | i64 (v : Int)
  | f64 (bits : Nat)
  | zero
  | one
  | blob (bytes : List Nat)
  | text (bytes : List Nat)
deriving DecidableEq

/-- Big-endian bytes of the low 8*w bits of a pattern. -/
def beBytes (w : Nat) (n : Nat) : List Nat :=
  (List.range w).map fun i => n / 2 ^ (8 * (w - 1 - i)) % 256

/-- The 8*w-bit two's-complement pattern of a signed value
(what an `as iN` cast keeps). -/
def toPat (w : Nat) (v : Int) : Nat := (v % ((2 : Int) ^ (8 * w))).toNat

/-- Reinterpret an 8*w-bit pattern as a signed value (the sign-extending
get() of I24/I48 and the zerocopy signed readers). -/
def fromPat (w : Nat) (n : Nat) : Int :=
  if n < 2 ^ (8 * w - 1) then (n : Int) else (n : Int) - 2 ^ (8 * w)

/-- The `v as iN` cast. -/
def castW (w : Nat) (v : Int) : Int := fromPat w (toPat w v)

/-- Fold big-endian bytes back into a pattern (how the byte-order wrappers
read memory). -/
def beNat (bytes : List Nat) : Nat := bytes.foldl (fun acc b => acc * 256 + b) 0

namespace SerialValue

/-- SerialValue::serial_type. -/
def serialType : SerialValue → SerialType
  | .null => .null
  | .i8 _ => .i8
  | .i16 _ => .i16
  | .i24 _ => .i24
  | .i32 _ => .i32
  | .i48 _ => .i48
  | .i64 _ => .i64
  | .f64 _ => .f64
  | .zero => .zero
  | .one => .one
  | .blob b => .blob b.length
  | .text t => .text t.length

/-- SerialValue::write: append the packed value bytes. -/
def writeBytes : SerialValue → List Nat
  | .null => []
  | .i8 v => beBytes 1 (toPat 1 v)
  | .i16 v => beBytes 2 (toPat 2 v)
  | .i24 v => beBytes 3 (toPat 3 v)
  | .i32 v => beBytes 4 (toPat 4 v)
  | .i48 v => beBytes 6 (toPat 6 v)
  | .i64 v => beBytes 8 (toPat 8 v)
  | .f64 bits => beBytes 8 bits
  | .zero => []
  | .one => []
  | .blob b => b
  | .text t => t

/-- SerialValue::consume: take the packed bytes named by the serial type off
the front of the value region.  A region shorter than required models the
consume_bytes panic. -/
def consume (ty : SerialType) (data : List Nat) : Option (SerialValue × List Nat) :=
  match ty with
  | .null => some (.null, data)
  | .i8 =>
    if 1 ≤ data.length then some (.i8 (fromPat 1 (beNat (data.take 1))), data.drop 1)
    else none
  | .i16 =>
    if 2 ≤ data.length then some (.i16 (fromPat 2 (beNat (data.take 2))), data.drop 2)
    else none
  | .i24 =>
    if 3 ≤ data.length then some (.i24 (fromPat 3 (beNat (data.take 3))), data.drop 3)
    else none
  | .i32 =>
    if 4 ≤ data.length then some (.i32 (fromPat 4 (beNat (data.take 4))), data.drop 4)
    else none
  | .i48 =>
    if 6 ≤ data.length then some (.i48 (fromPat 6 (beNat (data.take 6))), data.drop 6)
    else none
  | .i64 =>
    if 8 ≤ data.length then some (.i64 (fromPat 8 (beNat (data.take 8))), data.drop 8)
    else none
  | .f64 =>
    if 8 ≤ data.length then some (.f64 (beNat (data.take 8)), data.drop 8)
    else none
  | .zero => some (.zero, data)
  | .one => some (.one, data)
  | .blob n =>
    if n ≤ data.length then some (.blob (data.take n), data.drop n) else none
  | .text n =>
    if n ≤ data.length then some (.text (data.take n), data.drop n) else none

/-- Range constraints under which a value is re-encodable bit-for-bit: each
integer fits the width of its wrapper (every wrapper built by the code does),
the float pattern is 64 bits, and blob/text lengths keep the serial-type code
inside i64.  These express the Rust types' invariants, nothing more. -/
def wf : SerialValue → Prop
  | .i8 v => -(2 ^ 7) ≤ v ∧ v < 2 ^ 7
  | .i16 v => -(2 ^ 15) ≤ v ∧ v < 2 ^ 15
  | .i24 v => -(2 ^ 23) ≤ v ∧ v < 2 ^ 23
  | .i32 v => -(2 ^ 31) ≤ v ∧ v < 2 ^ 31
  | .i48 v => -(2 ^ 47) ≤ v ∧ v < 2 ^ 47
  | .i64 v => -(2 ^ 63) ≤ v ∧ v < 2 ^ 63
  | .f64 bits => bits < 2 ^ 64
  | .blob b => b.length ≤ 2 ^ 60
  | .text t => t.length ≤ 2 ^ 60
  | _ => True

end SerialValue

/-- RecordSerializer::serialize_i64: choose the integer serial form by the
required bit width (65 - leading_zeros of the magnitude pattern). -/
def serializeI64 (v : Int) : SerialValue :=
  if v = 0 then .zero
  else if v = 1 then .one
  else
    let bitsRequired := 64 - leadingZeros64 (absPat v) + 1
    if bitsRequired ≤ 8 then .i8 (castW 1 v)
    else if bitsRequired ≤ 16 then .i16 (castW 2 v)
    else if bitsRequired ≤ 24 then .i24 (castW 3 v)
    else if bitsRequired ≤ 32 then .i32 (castW 4 v)
    else if bitsRequired ≤ 48 then .i48 (castW 6 v)
    else .i64 (castW 8 v)

/-- A value fed to the record serializer through serde: integers of any Rust
width arrive at serialize_i64, floats at serialize_f64, strings and byte
blobs at their own entry points, None at serialize_none. -/
inductive TypedValue where
  | int (v : Int)
  | float (bits : Nat)
  | blob (bytes : List Nat)
  | text (bytes : List Nat)
  | null
deriving DecidableEq

/-- What the serializer pushes for one typed value. -/
def TypedValue.toSerial : TypedValue → SerialValue
  | .int v => serializeI64 v
  | .float bits => .f64 bits
  | .blob b => .blob b
  | .text t => .text t
  | .null => .null

/-- Constraints making a typed value representable at all (the integer is an
i64, the float pattern is 64 bits, blob/text fit in memory). -/
def TypedValue.wf : TypedValue → Prop
  | .int v => -(2 ^ 63) ≤ v ∧ v < 2 ^ 63
  | .float bits => bits < 2 ^ 64
  | .blob b => b.length ≤ 2 ^ 60
  | .text t => t.length ≤ 2 ^ 60
  | _ => True

/-- The self-referential header-size loop of the record encoder
(From RecordSerializer for Vec of u8).  In the Rust loop header_size always
equals the value most recently written as the header varint, so one variable
carries both; fuel 9 is enough because each pass strictly increases the value,
which stays at most typesLen + 9. -/
def headerLoop (typesLen : Nat) : Nat → Nat → Nat
  | 0, w => w
  | fuel + 1, w =>
    if typesLen + (Varint.write (w : Int)).length > w then
      headerLoop typesLen fuel (typesLen + (Varint.write (w : Int)).length)
    else w

/-- The final header-length value the encoder writes. -/
def headerValue (typesLen : Nat) : Nat :=
  headerLoop typesLen 9 (typesLen + 1)

/-- From RecordSerializer for Vec of u8: serial-type codes, preceded by the
self-referential header length, followed by the packed values. -/
def recordBytes (values : List SerialValue) : List Nat :=
  let typesBytes := values.flatMap fun v => Varint.write v.serialType.code
  Varint.write (headerValue typesBytes.length : Int) ++ typesBytes
    ++ values.flatMap SerialValue.writeBytes

/-- serialize_record for a full row of typed values. -/
def encodeTyped (vs : List TypedValue) : List Nat :=
  recordBytes (vs.map TypedValue.toSerial)

/-- SerialTypeIterator: read serial-type varints until the (already
truncated) header region is exhausted.  Varint.read consumes at least one
byte, so dropping (n - 1) from the tail consumes exactly its n bytes. -/
def decodeTypesLoop : List Nat → Option (List SerialType)
  | [] => some []
  | b :: rest =>
    match Varint.read (b :: rest) with
    | none => none
    | some (code, n) =>
      match SerialType.ofCode code with
      | none => none
      | some ty =>
        match decodeTypesLoop (rest.drop (n - 1)) with
        | none => none
        | some tys => some (ty :: tys)
termination_by l => l.length
decreasing_by
  simp only [List.length_drop, List.length_cons]
  omega

/-- SerialValueIterator: one packed value per serial type; leftover value
bytes after the last type are ignored, as in the iterator. -/
def decodeValuesLoop : List SerialType → List Nat → Option (List SerialValue)
  | [], _ => some []
  | ty :: tys, data =>
    match SerialValue.consume ty data with
    | none => none
    | some (v, rest) =>
      match decodeValuesLoop tys rest with
      | none => none
      | some vs => some (v :: vs)

/-- Decode a record payload: header-length varint, serial-type region
(the full record truncated to header_len, then the header varint skipped),
then the packed values starting at header_len.  Out-of-range truncations
model the corresponding panics. -/
def decodeRecord (data : List Nat) : Option (List SerialValue) :=
  match Varint.read data with
  | none => none
  | some (headerLen, n) =>
    let hl := toU64 headerLen
    if data.length < hl then none
    else if hl < n then none
    else
      match decodeTypesLoop ((data.take hl).drop n) with
      | none => none
      | some tys => decodeValuesLoop tys (data.drop hl)

/-- Modelled from the claim text: the narrowest serial form whose
two's-complement bit-width accommodates the integer (0 and 1 take the
singleton codes).  Written from the claim's words, to compare with the
code's serializeI64. -/
def narrowestSerial (v : Int) : SerialValue :=
  if v = 0 then .zero
  else if v = 1 then .one
  else if -(2 ^ 7) ≤ v ∧ v < 2 ^ 7 then .i8 v
  else if -(2 ^ 15) ≤ v ∧ v < 2 ^ 15 then .i16 v
  else if -(2 ^ 23) ≤ v ∧ v < 2 ^ 23 then .i24 v
  else if -(2 ^ 31) ≤ v ∧ v < 2 ^ 31 then .i32 v
  else if -(2 ^ 47) ≤ v ∧ v < 2 ^ 47 then .i48 v
  else .i64 v

/-- The claim's normalise, applied valuewise. -/
def normaliseSpec (vs : List TypedValue) : List SerialValue :=
  vs.map fun tv =>
    match tv with
    | .int v => narrowestSerial v
    | .float bits => .f64 bits
    | .blob b => .blob b
    | .text t => .text t
    | .null => .null

/-! ### Leaf-table insertion (btree/mod.rs BTreePageMut, schema/mod.rs insert) -/

/-- BTreePageMut::insert_table_record on a leaf-table page, viewed through the
cell-pointer array: the encoded cell (payload-size varint, row-id varint,
payload) is appended after the existing cell_count pointers, with no ordering
check (append_cell).  A leaf page is its cells in pointer-array order. -/
def insertTableRecord (cells : List (List Nat)) (rowId : Int) (record : List Nat) :
    List (List Nat) :=
  cells ++ [Varint.write (record.length : Int) ++ Varint.write rowId ++ record]

/-- TableHandleMut::insert: the row id is the constant 1, the row is
serialized and appended to the root page, and Ok(1) is returned. -/
def tableInsert (cells : List (List Nat)) (row : List TypedValue) :
    Int × List (List Nat) :=
  (1, insertTableRecord cells 1 (encodeTyped row))

/-- BTreePage::leaf_table_cell: consume the payload-size varint, the row-id
varint, then truncate to the payload size (an oversized size panics). -/
def leafTableCellParse (cell : List Nat) : Option (Int × List Nat) :=
  match Varint.read cell with
  | none => none
  | some (psize, n1) =>
    match Varint.read (cell.drop n1) with
    | none => none
    | some (rowId, n2) =>
      if toU64 psize ≤ (cell.drop (n1 + n2)).length then
        some (rowId, (cell.drop (n1 + n2)).take (toU64 psize))
      else none

/-! ### Table B-tree pages and iterators (physical/btree)

A table page is modelled in parsed form.  An interior cell holds the subtree
its 4-byte left-child page number denotes together with its row-id key; the
separate rightMost component is the subtree the page header's right-most
pointer denotes.  Page loads are total here (the IO error path of
BTreePage::new is outside these claims). -/

inductive TTree where
  | leaf (cells : List (Int × List Nat)) : TTree
  | interior (cells : List (TTree × Int)) (rightMost : TTree) : TTree

mutual
/-- Total iteration work in a subtree: one unit per leaf cell plus one per
interior cell (each interior cell is visited once before descending). -/
def twork : TTree → Nat
  | .leaf cells => cells.length
  | .interior cells _ => tworkCells cells
def tworkCells : List (TTree × Int) → Nat
  | [] => 0
  | c :: rest => (twork c.1 + 1) + tworkCells rest
end

/-- Work remaining in a page from cell index i onward. -/
def tworkFrom (t : TTree) (i : Nat) : Nat :=
  match t with
  | .leaf cells => cells.length - i
  | .interior cells _ => tworkCells (cells.drop i)

/-- The state of BTreeTableEntries: current page, next cell index, explicit
stack of (page, next cell index) frames, exclusive upper bound. -/
structure TState where
  page : TTree
  index : Nat
  stack : List (TTree × Nat)
  maxRowId : Option Int

/-- Work remaining in the stacked frames. -/
def stackWork (stack : List (TTree × Nat)) : Nat :=
  (stack.map fun f => tworkFrom f.1 f.2).sum

/-- Termination measure for the iterator loop: descending consumes one work
unit, popping consumes one stack frame. -/
def smeasure (s : TState) : Nat :=
  2 * (tworkFrom s.page s.index + stackWork s.stack) + s.stack.length

/-- BTreeTableEntries::next, driven to exhaustion: the full yield sequence
from a state.  Interior pages descend through the cell's left child pushing
the parent frame; leaf cells are yielded unless the exclusive max row id is
reached; exhausted frames pop the stack. -/
def tableEntriesFrom : TState → List (Int × List Nat)
  | ⟨page, index, stack, maxR⟩ =>
    match page with
    | .interior cells r =>
      if h : index < cells.length then
        tableEntriesFrom
          ⟨(cells.get ⟨index, h⟩).1, 0, (.interior cells r, index + 1) :: stack, maxR⟩
      else
        match stack with
        | [] => []
        | (p, i) :: rest => tableEntriesFrom ⟨p, i, rest, maxR⟩
    | .leaf cells =>
      if h : index < cells.length then
        match maxR with
        | some m =>
          if m ≤ (cells.get ⟨index, h⟩).1 then []
          else cells.get ⟨index, h⟩ :: tableEntriesFrom ⟨.leaf cells, index + 1, stack, maxR⟩
        | none => cells.get ⟨index, h⟩ :: tableEntriesFrom ⟨.leaf cells, index + 1, stack, maxR⟩
      else
        match stack with
        | [] => []
        | (p, i) :: rest => tableEntriesFrom ⟨p, i, rest, maxR⟩
termination_by s => smeasure s
decreasing_by
  all_goals simp only [smeasure, tworkFrom, stackWork, List.map_cons, List.sum_cons,
    List.length_cons]
  · have hchild : tworkFrom (cells.get ⟨index, h⟩).1 0 = twork (cells.get ⟨index, h⟩).1 := by
      cases (cells.get ⟨index, h⟩).1 <;> simp [tworkFrom, twork]
    simp only [tworkFrom] at hchild
    have hstep : tworkCells (List.drop index cells)
        = twork (cells.get ⟨index, h⟩).1 + 1 + tworkCells (List.drop (index + 1) cells) := by
      rw [List.drop_eq_getElem_cons h]
      simp only [tworkCells, List.get_eq_getElem]
    omega
  · omega
  · omega
  · omega

/-- The interior-page loop of BTreeTableEntries::seek: child_page_index ends
as the count of leading cells whose key is at most the target (each such cell
sets it to index + 1; the loop breaks at the first larger key). -/
def childIndexScan (cells : List (TTree × Int)) (rowId : Int) : Nat :=
  match cells with
  | [] => 0
  | c :: rest => if rowId < c.2 then 0 else childIndexScan rest rowId + 1

/-- The count of leading leaf cells with row-id at most the target. -/
def prefCountL (cells : List (Int × List Nat)) (rowId : Int) : Nat :=
  match cells with
  | [] => 0
  | c :: rest => if rowId < c.1 then 0 else prefCountL rest rowId + 1

/-- The leaf-page loop of seek: leaf_index ends as the index of the last
leading cell with key at most the target (it stores index, not index + 1),
and 0 when there is none — the Nat subtraction clamps exactly so. -/
def leafIndexScan (cells : List (Int × List Nat)) (rowId : Int) : Nat :=
  prefCountL cells rowId - 1

/-- BTreeTableEntries::seek: descend interior pages through the scanned child
index, pushing (page, child index + 1); position the leaf index on arrival.
Accessing the cell at index cell_count (when every separator key is at most
the target) is the assert panic in cell_pointer, modelled as none. -/
def seekGo (t : TTree) (rowId : Int) (stack : List (TTree × Nat)) :
    Option (TTree × Nat × List (TTree × Nat)) :=
  match t with
  | .leaf cells => some (.leaf cells, leafIndexScan cells rowId, stack)
  | .interior cells r =>
    let cpi := childIndexScan cells rowId
    match h : cells[cpi]? with
    | none => none
    | some c => seekGo c.1 rowId ((.interior cells r, cpi + 1) :: stack)
termination_by sizeOf t
decreasing_by
  have hmem : c ∈ cells := by
    obtain ⟨hlt, heq⟩ := List.getElem?_eq_some.mp h
    exact heq ▸ List.getElem_mem hlt
  have h1 : sizeOf c < sizeOf cells := List.sizeOf_lt_of_mem hmem
  have h2 : sizeOf c.1 < sizeOf c := by
    cases c
    simp
    omega
  simp only [TTree.interior.sizeOf_spec]
  omega

/-- BTreeTableEntries::with_range: seek when a start bound is given, then
record the exclusive end bound. -/
def tableWithRange (t : TTree) (startB endB : Option Int) : Option TState :=
  match startB with
  | some s =>
    match seekGo t s [] with
    | none => none
    | some (p, i, st) => some ⟨p, i, st, endB⟩
  | none => some ⟨t, 0, [], endB⟩

/-- The full yield sequence of a range scan (none when seek panics). -/
def tableRangeYields (t : TTree) (startB endB : Option Int) :
    Option (List (Int × List Nat)) :=
  (tableWithRange t startB endB).map tableEntriesFrom

/-- The TableRange instance for i64: get(row_id) runs table_range_impl over
row_id.. (start included, end unbounded) and takes the first yield. -/
def tableGet (t : TTree) (r : Int) : Option (Option (Int × List Nat)) :=
  (tableRangeYields t (some r) none).map List.head?

/-- A Rust RangeBounds endpoint. -/
inductive BoundE where
  | incl (x : Int)
  | excl (x : Int)
  | unb

/-- table_range_impl's start-bound mapping. -/
def mapStartBound : BoundE → Option Int
  | .incl a => some a
  | .excl a => some (a + 1)
  | .unb => none

/-- table_range_impl's end-bound mapping. -/
def mapEndBound : BoundE → Option Int
  | .incl b => some (b + 1)
  | .excl b => some b
  | .unb => none

mutual
/-- The rows a full scan reaches, in visit order: leaf cells left to right,
interior cells through their left children only (the right-most subtree is
never entered). -/
def inorder : TTree → List (Int × List Nat)
  | .leaf cells => cells
  | .interior cells _ => inorderCells cells
def inorderCells : List (TTree × Int) → List (Int × List Nat)
  | [] => []
  | c :: rest => inorder c.1 ++ inorderCells rest
end

/-- The rows still to be visited in a page from cell index i. -/
def fromIndex (t : TTree) (i : Nat) : List (Int × List Nat) :=
  match t with
  | .leaf cells => cells.drop i
  | .interior cells _ => inorderCells (cells.drop i)

/-- The rows the stacked frames will still produce. -/
def stackDen (stack : List (TTree × Nat)) : List (Int × List Nat) :=
  stack.flatMap fun f => fromIndex f.1 f.2

/-- Truncation by the exclusive max row id: iteration stops at the first
yield whose row id reaches it. -/
def cutMax (m : Option Int) (l : List (Int × List Nat)) : List (Int × List Nat) :=
  match m with
  | none => l
  | some b => l.takeWhile fun c => decide (c.1 < b)

mutual
/-- Sortedness of a table B-tree within an exclusive lower / inclusive upper
key window: leaves are strictly sorted inside the window; each interior cell
bounds its child's keys by its own key, with keys increasing cellwise.  The
right-most subtree is unconstrained, as no scan enters it. -/
def TWF : TTree → Option Int → Option Int → Prop
  | .leaf cells, lo, hi =>
    List.Pairwise (· < ·) (cells.map Prod.fst) ∧
      ∀ c ∈ cells, (∀ l ∈ lo, l < c.1) ∧ ∀ h ∈ hi, c.1 ≤ h
  | .interior cells _, lo, hi => TWFCells cells lo hi
def TWFCells : List (TTree × Int) → Option Int → Option Int → Prop
  | [], _, _ => True
  | c :: rest, lo, hi =>
    TWF c.1 lo (some c.2) ∧ (∀ l ∈ lo, l < c.2) ∧ (∀ h ∈ hi, c.2 ≤ h) ∧
      TWFCells rest (some c.2) hi
end

mutual
/-- Replace every right-most subtree by an empty leaf, leaving the cells
intact: scans never read the right-most pointer, so this is invisible to
them. -/
def stripRight : TTree → TTree
  | .leaf cells => .leaf cells
  | .interior cells _ => .interior (stripRightCells cells) (.leaf [])
def stripRightCells : List (TTree × Int) → List (TTree × Int)
  | [] => []
  | c :: rest => (stripRight c.1, c.2) :: stripRightCells rest
end

/-! ### Index B-tree pages and iterator (physical/btree, index side) -/

inductive ITree where
  | leaf (cells : List (List Nat)) : ITree
  | interior (cells : List (ITree × List Nat)) (rightMost : ITree) : ITree

mutual
def iwork : ITree → Nat
  | .leaf cells => cells.length
  | .interior cells _ => iworkCells cells
def iworkCells : List (ITree × List Nat) → Nat
  | [] => 0
  | c :: rest => (iwork c.1 + 1) + iworkCells rest
end

def iworkFrom (t : ITree) (i : Nat) : Nat :=
  match t with
  | .leaf cells => cells.length - i
  | .interior cells _ => iworkCells (cells.drop i)

/-- The state of BTreeIndexEntries (the comparator is immutable and passed
alongside). -/
structure IState where
  page : ITree
  index : Nat
  stack : List (ITree × Nat)

def istackWork (stack : List (ITree × Nat)) : Nat :=
  (stack.map fun f => iworkFrom f.1 f.2).sum

def imeasure (s : IState) : Nat :=
  2 * (iworkFrom s.page s.index + istackWork s.stack) + s.stack.length

/-- BTreeIndexEntries::next driven to exhaustion: a leaf payload comparing
Less ends the scan, Equal is yielded, anything else (Greater or a decode
failure) is skipped; interior pages only descend through cell children. -/
def indexEntriesFrom (cmp : List Nat → Option Ordering) : IState → List (List Nat)
  | ⟨page, index, stack⟩ =>
    match page with
    | .interior cells r =>
      if h : index < cells.length then
        indexEntriesFrom cmp
          ⟨(cells.get ⟨index, h⟩).1, 0, (.interior cells r, index + 1) :: stack⟩
      else
        match stack with
        | [] => []
        | (p, i) :: rest => indexEntriesFrom cmp ⟨p, i, rest⟩
    | .leaf cells =>
      if h : index < cells.length then
        match cmp (cells.get ⟨index, h⟩) with
        | some .lt => []
        | some .eq => cells.get ⟨index, h⟩ :: indexEntriesFrom cmp ⟨.leaf cells, index + 1, stack⟩
        | _ => indexEntriesFrom cmp ⟨.leaf cells, index + 1, stack⟩
      else
        match stack with
        | [] => []
        | (p, i) :: rest => indexEntriesFrom cmp ⟨p, i, rest⟩
termination_by s => imeasure s
decreasing_by
  all_goals simp only [imeasure, iworkFrom, istackWork, List.map_cons, List.sum_cons,
    List.length_cons]
  · have hchild : iworkFrom (cells.get ⟨index, h⟩).1 0 = iwork (cells.get ⟨index, h⟩).1 := by
      cases (cells.get ⟨index, h⟩).1 <;> simp [iworkFrom, iwork]
    simp only [iworkFrom] at hchild
    have hstep : iworkCells (List.drop index cells)
        = iwork (cells.get ⟨index, h⟩).1 + 1 + iworkCells (List.drop (index + 1) cells) := by
      rw [List.drop_eq_getElem_cons h]
      simp only [iworkCells, List.get_eq_getElem]
    omega
  all_goals omega

/-- The interior loop of seek_start: child_page_index ends as the index of
the last cell in the leading run whose key compares Less (the comparator is
below it), or 0 when the run is empty — it stores index, not index + 1. -/
def prefLtCountI (cmp : List Nat → Option Ordering) :
    List (ITree × List Nat) → Nat
  | [] => 0
  | c :: rest => if cmp c.2 = some .lt then prefLtCountI cmp rest + 1 else 0

/-- The same leading-run count over leaf payloads. -/
def prefLtCountL (cmp : List Nat → Option Ordering) : List (List Nat) → Nat
  | [] => 0
  | c :: rest => if cmp c = some .lt then prefLtCountL cmp rest + 1 else 0

/-- BTreeIndexEntries::seek_start.  The interior cell access can only go out
of bounds on an empty interior page (the scanned index is clamped below the
cell count otherwise), modelled as none. -/
def indexSeekGo (cmp : List Nat → Option Ordering) (t : ITree)
    (stack : List (ITree × Nat)) : Option IState :=
  match t with
  | .leaf cells => some ⟨.leaf cells, prefLtCountL cmp cells - 1, stack⟩
  | .interior cells r =>
    let cpi := prefLtCountI cmp cells - 1
    match h : cells[cpi]? with
    | none => none
    | some c => indexSeekGo cmp c.1 ((.interior cells r, cpi + 1) :: stack)
termination_by sizeOf t
decreasing_by
  have hmem : c ∈ cells := by
    obtain ⟨hlt, heq⟩ := List.getElem?_eq_some.mp h
    exact heq ▸ List.getElem_mem hlt
  have h1 : sizeOf c < sizeOf cells := List.sizeOf_lt_of_mem hmem
  have h2 : sizeOf c.1 < sizeOf c := by
    cases c
    simp
    omega
  simp only [ITree.interior.sizeOf_spec]
  omega

/-- BTreeIndexEntries::with_range: always seeks from the root. -/
def indexWithRange (cmp : List Nat → Option Ordering) (t : ITree) : Option IState :=
  indexSeekGo cmp t []

/-- The full yield sequence of an index range scan. -/
def indexYields (cmp : List Nat → Option Ordering) (t : ITree) :
    Option (List (List Nat)) :=
  (indexWithRange cmp t).map (indexEntriesFrom cmp)

mutual
/-- The payloads a full index scan reaches (leaf payloads only: interior
separator payloads are never yielded, and right-most subtrees never
entered). -/
def inorderI : ITree → List (List Nat)
  | .leaf cells => cells
  | .interior cells _ => inorderICells cells
def inorderICells : List (ITree × List Nat) → List (List Nat)
  | [] => []
  | c :: rest => inorderI c.1 ++ inorderICells rest
end

def fromIndexI (t : ITree) (i : Nat) : List (List Nat) :=
  match t with
  | .leaf cells => cells.drop i
  | .interior cells _ => inorderICells (cells.drop i)

def stackDenI (stack : List (ITree × Nat)) : List (List Nat) :=
  stack.flatMap fun f => fromIndexI f.1 f.2

/-- What the leaf loop of next does to a payload sequence: stop at the first
Less, keep the Equal ones. -/
def stopFilter (cmp : List Nat → Option Ordering) (l : List (List Nat)) :
    List (List Nat) :=
  (l.takeWhile fun r => decide (cmp r ≠ some .lt)).filter fun r =>
    decide (cmp r = some .eq)

mutual
def stripRightI : ITree → ITree
  | .leaf cells => .leaf cells
  | .interior cells _ => .interior (stripRightICells cells) (.leaf [])
def stripRightICells : List (ITree × List Nat) → List (ITree × List Nat)
  | [] => []
  | c :: rest => (stripRightI c.1, c.2) :: stripRightICells rest
end

/-! ### The byte-level B-tree page header (btree/mod.rs BTreePageHeader) -/

inductive BTreePageType where
  | interiorIndex
  | interiorTable
  | leafIndex
  | leafTable
deriving DecidableEq

def BTreePageType.isLeaf : BTreePageType → Bool
  | .interiorIndex | .interiorTable => false
  | .leafIndex | .leafTable => true

/-- BTreePageType::header_size: 8 for leaves, 12 for interior pages (the
on-disk interior header ends with a 4-byte right-most pointer). -/
def BTreePageType.headerSize (t : BTreePageType) : Nat :=
  if t.isLeaf then 8 else 12

/-- The in-memory BTreePageHeader struct: its right_most_pointer field is a
2-byte big-endian integer, so the struct spans 10 bytes. -/
structure BTreePageHeader where
  flags : Nat
  firstFreeblock : Nat
  cellCount : Nat
  cellContentStart : Nat
  fragmentedFreeBytes : Nat
  rightMostPointer : Nat
deriving DecidableEq

/-- BTreePageHeader::read_from_prefix via zerocopy: one byte of flags, three
2-byte big-endian fields, one byte of fragment count, then a 2-byte
big-endian right-most pointer — ten bytes in all (shorter input fails). -/
def readPageHeader (bytes : List Nat) : Option BTreePageHeader :=
  if h : 10 ≤ bytes.length then
    some
      { flags := bytes.get ⟨0, by omega⟩
        firstFreeblock := bytes.get ⟨1, by omega⟩ * 256 + bytes.get ⟨2, by omega⟩
        cellCount := bytes.get ⟨3, by omega⟩ * 256 + bytes.get ⟨4, by omega⟩
        cellContentStart := bytes.get ⟨5, by omega⟩ * 256 + bytes.get ⟨6, by omega⟩
        fragmentedFreeBytes := bytes.get ⟨7, by omega⟩
        rightMostPointer := bytes.get ⟨8, by omega⟩ * 256 + bytes.get ⟨9, by omega⟩ }
  else none

/-! ### The 100-byte database header (physical/header.rs) and DB::open -/

/-- The Header struct, field for field.  Multi-byte fields hold the decoded
integer their get() returns (page_size is little-endian and scaled by 256 on
read; every other integer is big-endian). -/
structure Header where
  headerString : List Nat
  pageSizeRaw : Nat
  writeVersion : Nat
  readVersion : Nat
  reservedSpace : Nat
  maxPayloadFraction : Nat
  minPayloadFraction : Nat
  leafPayloadFraction : Nat
  fileChangeCounter : Nat
  databaseSize : Nat
  freelistHead : Nat
  freelistCount : Nat
  schemaCookie : Nat
  schemaFormat : Nat
  pageCacheSize : Nat
  largestRootBtreePageNumber : Nat
  databaseTextEncoding : Nat
  userVersion : Nat
  incrementalVacuumMode : Nat
  applicationId : Nat
  reserved : List Nat
  versionValidFor : Nat
  sqliteVersionNumber : Nat
deriving DecidableEq

/-- "SQLite format 3\0". -/
def magicBytes : List Nat :=
  [83, 81, 76, 105, 116, 101, 32, 102, 111, 114, 109, 97, 116, 32, 51, 0]

/-- Header::page_size: the raw little-endian u16 times 256. -/
def Header.pageSize (h : Header) : Nat := h.pageSizeRaw * 256

/-- A big-endian u32 at a byte offset. -/
def beNatAt (bytes : List Nat) (off : Nat) : Nat := beNat ((bytes.drop off).take 4)

/-- Header::read_from: zerocopy field-by-field parse of the first 100
bytes. -/
def Header.read100 (bytes : List Nat) : Header where
  headerString := bytes.take 16
  pageSizeRaw := bytes.getD 16 0 + bytes.getD 17 0 * 256
  writeVersion := bytes.getD 18 0
  readVersion := bytes.getD 19 0
  reservedSpace := bytes.getD 20 0
  maxPayloadFraction := bytes.getD 21 0
  minPayloadFraction := bytes.getD 22 0
  leafPayloadFraction := bytes.getD 23 0
  fileChangeCounter := beNatAt bytes 24
  databaseSize := beNatAt bytes 28
  freelistHead := beNatAt bytes 32
  freelistCount := beNatAt bytes 36
  schemaCookie := beNatAt bytes 40
  schemaFormat := beNatAt bytes 44
  pageCacheSize := beNatAt bytes 48
  largestRootBtreePageNumber := beNatAt bytes 52
  databaseTextEncoding := beNatAt bytes 56
  userVersion := beNatAt bytes 60
  incrementalVacuumMode := beNatAt bytes 64
  applicationId := beNatAt bytes 68
  reserved := (bytes.drop 72).take 20
  versionValidFor := beNatAt bytes 92
  sqliteVersionNumber := beNatAt bytes 96

/-- Header::write_to_prefix: the 100 bytes the header serializes to. -/
def headerBytes (h : Header) : List Nat :=
  h.headerString.take 16
    ++ [h.pageSizeRaw % 256, h.pageSizeRaw / 256 % 256]
    ++ [h.writeVersion % 256, h.readVersion % 256, h.reservedSpace % 256,
      h.maxPayloadFraction % 256, h.minPayloadFraction % 256, h.leafPayloadFraction % 256]
    ++ beBytes 4 h.fileChangeCounter ++ beBytes 4 h.databaseSize
    ++ beBytes 4 h.freelistHead ++ beBytes 4 h.freelistCount
    ++ beBytes 4 h.schemaCookie ++ beBytes 4 h.schemaFormat
    ++ beBytes 4 h.pageCacheSize ++ beBytes 4 h.largestRootBtreePageNumber
    ++ beBytes 4 h.databaseTextEncoding ++ beBytes 4 h.userVersion
    ++ beBytes 4 h.incrementalVacuumMode ++ beBytes 4 h.applicationId
    ++ h.reserved.take 20
    ++ beBytes 4 h.versionValidFor ++ beBytes 4 h.sqliteVersionNumber

/-- u32::is_power_of_two. -/
def isPow2 (n : Nat) : Bool := (List.range 32).any fun k => n == 2 ^ k

/-- The conjunction of the assert! conditions in Header::validate.  The Rust
function panics (assert!) when any of them fails; it has no error return. -/
def Header.validateOk (h : Header) : Bool :=
  (h.headerString == magicBytes) &&
    isPow2 h.pageSize && (decide (512 ≤ h.pageSize) && decide (h.pageSize ≤ 65536)) &&
    (h.writeVersion == 1) && (h.readVersion == 1) && (h.reservedSpace == 0) &&
    (h.maxPayloadFraction == 64) && (h.minPayloadFraction == 32) &&
    (h.leafPayloadFraction == 32) && (h.schemaFormat == 4) &&
    (h.largestRootBtreePageNumber == 0) && (h.databaseTextEncoding == 1) &&
    (h.incrementalVacuumMode == 0)

/-- How DB::open can end.  ioError is a returned Err from File::open or the
header read; panicked is an aborted assert! in Header::validate; formatError
is the outcome the specification describes, which no code path constructs. -/
inductive OpenResult where
  | ok (h : Header)
  | ioError
  | panicked
  | formatError
deriving DecidableEq

/-- DB::open over the file contents (none: the file could not be opened).
Header::read seeks to 0, reads exactly 100 bytes (an Err on short files) and
calls validate, which asserts; open validates once more and returns Ok. -/
def openBytes (file : Option (List Nat)) : OpenResult :=
  match file with
  | none => .ioError
  | some bytes =>
    if bytes.length < 100 then .ioError
    else
      let h := Header.read100 (bytes.take 100)
      if h.validateOk then .ok h else .panicked

/-! ### Transactions over an in-memory DB (physical/transaction.rs)

The page store is modelled as the mapping each page number has when read:
SharedAppendMap inserts cache exactly the bytes DB::page returns, so the
observable mapping never changes on reads and the cache is elided.  The DB
is in-memory (file = None, as built by DB::new), so begin_transaction's
header re-read from the file does not apply. -/

structure MDB where
  header : Header
  pages : Nat → Option (List Nat)

/-- DB::page for an in-memory DB: a cached page, or a fresh zero page inside
bounds, or the out-of-bounds Err. -/
def MDB.page (db : MDB) (n : Nat) : Option (List Nat) :=
  match db.pages n with
  | some p => some p
  | none =>
    if 1 ≤ n ∧ n ≤ db.header.databaseSize then some (List.replicate db.header.pageSize 0)
    else none

/-- The Transaction struct: its snapshot counters and the dirty map (the db
reference is passed explicitly to each operation). -/
structure Txn where
  databaseSize : Nat
  freelistHead : Nat
  freelistCount : Nat
  dirtyPages : List (Nat × List Nat)

/-- DB::begin_transaction on an in-memory DB. -/
def txBegin (db : MDB) : Txn :=
  ⟨db.header.databaseSize, db.header.freelistHead, db.header.freelistCount, []⟩

def lookupDirty (l : List (Nat × List Nat)) (n : Nat) : Option (List Nat) :=
  (l.find? fun e => e.1 == n).map (·.2)

def insertDirty (l : List (Nat × List Nat)) (n : Nat) (p : List Nat) :
    List (Nat × List Nat) :=
  match l with
  | [] => [(n, p)]
  | e :: rest => if e.1 = n then (n, p) :: rest else e :: insertDirty rest n p

/-- How a transaction operation can fail: a returned Err, or an aborting
panic (the todo!() in freelist::pop_page). -/
inductive TxErr where
  | ioErr
  | panic2
deriving DecidableEq

/-- ReadDB for Transaction: dirty page first, then the underlying DB. -/
def txPage (db : MDB) (tx : Txn) (n : Nat) : Except TxErr (List Nat) :=
  match lookupDirty tx.dirtyPages n with
  | some p => .ok p
  | none =>
    match db.page n with
    | some p => .ok p
    | none => .error .ioErr

/-- Transaction::page_mut: copy the page into the dirty map on first touch. -/
def txPageMut (db : MDB) (tx : Txn) (n : Nat) : Except TxErr (Txn × List Nat) :=
  match lookupDirty tx.dirtyPages n with
  | some p => .ok (tx, p)
  | none =>
    match db.page n with
    | some p => .ok ({ tx with dirtyPages := insertDirty tx.dirtyPages n p }, p)
    | none => .error .ioErr

/-- Transaction::new_page: freelist::pop_page hits todo!() whenever the
freelist is nonempty; otherwise a zero page is entered at database_size + 1
(or_insert keeps an existing dirty entry) and the size snapshot advances. -/
def txNewPage (db : MDB) (tx : Txn) : Except TxErr (Txn × Nat × List Nat) :=
  if tx.freelistCount ≠ 0 then .error .panic2
  else
    let n := tx.databaseSize + 1
    let p :=
      match lookupDirty tx.dirtyPages n with
      | some q => q
      | none => List.replicate db.header.pageSize 0
    .ok ({ tx with dirtyPages := insertDirty tx.dirtyPages n p, databaseSize := n }, n, p)

/-- Transaction::commit: publish every dirty page, set the three header
fields from the snapshot, and overwrite page 1's first 100 bytes with the
header (db.pages.get_mut(&1).unwrap() panics when page 1 was never
materialised, modelled as none).  The file change counter is left alone. -/
def txCommit (db : MDB) (tx : Txn) : Option MDB :=
  let merged : Nat → Option (List Nat) := fun n =>
    match lookupDirty tx.dirtyPages n with
    | some p => some p
    | none => db.pages n
  let header1 := { db.header with
    databaseSize := tx.databaseSize
    freelistHead := tx.freelistHead
    freelistCount := tx.freelistCount }
  match merged 1 with
  | none => none
  | some p1 => some ⟨header1, fun n =>
      if n = 1 then some (headerBytes header1 ++ p1.drop 100) else merged n⟩

/-- The transaction operations the schema layer reaches before commit (insert
and create_table factor through page and page_mut). -/
inductive TxOp where
  | opPage (n : Nat)
  | opPageMut (n : Nat)
  | opNewPage

/-- Run one operation, threading the DB state it leaves behind. -/
def runOp (db : MDB) (tx : Txn) : TxOp → Except TxErr (MDB × Txn)
  | .opPage n => (txPage db tx n).map fun _ => (db, tx)
  | .opPageMut n => (txPageMut db tx n).map fun r => (db, r.1)
  | .opNewPage => (txNewPage db tx).map fun r => (db, r.1)

/-- Run a pre-commit operation sequence. -/
def runOps (db : MDB) (tx : Txn) : List TxOp → Except TxErr (MDB × Txn)
  | [] => .ok (db, tx)
  | op :: rest =>
    match runOp db tx op with
    | .error e => .error e
    | .ok (db2, tx2) => runOps db2 tx2 rest

/-- A concrete in-memory database used to exercise the transaction model:
the all-zero header with one all-zero page. -/
def exampleMDB : MDB :=
  ⟨Header.read100 (List.replicate 100 0),
    fun n => if n = 1 then some (List.replicate 512 0) else none⟩

/-- The fresh transaction on exampleMDB. -/
def exampleTxn : Txn := txBegin exampleMDB

/-- The database exampleTxn commits to. -/
def exampleCommitted : MDB :=
  (txCommit exampleMDB exampleTxn).getD ⟨Header.read100 [], fun _ => none⟩

end Squeak

/-! ## Theorems -/

namespace Squeak

namespace Varint

lemma nineList_length (u : Nat) : (nineList u).length = 9 := rfl

lemma shortList_length (u count : Nat) : (shortList u count).length = count := by
  simp [shortList]

lemma shortList_one (u : Nat) : shortList u 1 = [u % 128] := by
  simp [shortList]

lemma div_pow_mod_mod (u a k : Nat) (h : a + 7 ≤ k) :
    u % 2 ^ k / 2 ^ a % 128 = u / 2 ^ a % 128 := by
  have h128 : (128 : Nat) = 2 ^ 7 := rfl
  rw [Nat.div_mod_eq_mod_mul_div, Nat.div_mod_eq_mod_mul_div, h128,
    ← pow_add, Nat.mod_mod_of_dvd _ (pow_dvd_pow 2 (by omega))]

lemma shortList_succ (u k : Nat) (hk : 1 ≤ k) :
    shortList u (k + 1) =
      (u / 2 ^ (7 * k) % 128 + 128) :: shortList (u % 2 ^ (7 * k)) k := by
  unfold shortList
  rw [List.range_succ_eq_map, List.map_cons, List.map_map]
  have h0 : k + 1 - 1 - 0 = k := by omega
  refine congrArg₂ _ ?_ ?_
  · simp only [h0]
    rw [if_neg (by omega)]
  · refine List.map_congr_left fun i hi => ?_
    have hik : i < k := List.mem_range.mp hi
    show (let j := k + 1 - 1 - (i + 1);
          if j = 0 then u % 128 else u / 2 ^ (7 * j) % 128 + 128) = _
    have hj : k + 1 - 1 - (i + 1) = k - 1 - i := by omega
    simp only [hj]
    by_cases hz : k - 1 - i = 0
    · rw [if_pos hz, if_pos hz]
      have hdvd : (128 : Nat) ∣ 2 ^ (7 * k) := by
        have h7 : (128 : Nat) = 2 ^ 7 := rfl
        rw [h7]
        exact pow_dvd_pow 2 (by omega)
      exact (Nat.mod_mod_of_dvd u hdvd).symm
    · rw [if_neg hz, if_neg hz,
        div_pow_mod_mod u (7 * (k - 1 - i)) (7 * k) (by omega)]

theorem readAux_shortList (k : Nat) :
    ∀ (i acc u : Nat) (rest : List Nat), 1 ≤ k → i + k ≤ 8 → u < 2 ^ (7 * k) →
      readAux (shortList u k ++ rest) i acc =
        some ((acc * 2 ^ (7 * k) + u) % 2 ^ 64, i + k) := by
  induction k with
  | zero => omega
  | succ k ih =>
    intro i acc u rest _ hik hu
    by_cases hk : 1 ≤ k
    · rw [shortList_succ u k hk, List.cons_append]
      have hi8 : ¬ (8 ≤ i) := by omega
      have hnd : ¬ (u / 2 ^ (7 * k) % 128 + 128 < 128) := by omega
      rw [readAux, if_neg hi8, if_neg hnd]
      have hdiv : u / 2 ^ (7 * k) < 128 := by
        have : (2 : Nat) ^ (7 * (k + 1)) = 2 ^ (7 * k) * 2 ^ 7 := by
          rw [← pow_add]; ring_nf
        rw [Nat.div_lt_iff_lt_mul (Nat.pos_pow_of_pos _ (by norm_num))]
        calc u < 2 ^ (7 * (k + 1)) := hu
          _ = 128 * 2 ^ (7 * k) := by rw [this]; ring
      have hmod : (u / 2 ^ (7 * k) % 128 + 128) % 128 = u / 2 ^ (7 * k) := by
        rw [Nat.mod_eq_of_lt hdiv, Nat.add_mod_right, Nat.mod_eq_of_lt hdiv]
      rw [hmod, ih (i + 1) ((acc * 128 + u / 2 ^ (7 * k)) % 2 ^ 64)
        (u % 2 ^ (7 * k)) rest hk (by omega)
        (Nat.mod_lt _ (Nat.pos_pow_of_pos _ (by norm_num)))]
      refine congrArg _ (Prod.ext ?_ (by omega))
      show ((acc * 128 + u / 2 ^ (7 * k)) % 2 ^ 64 * 2 ^ (7 * k)
            + u % 2 ^ (7 * k)) % 2 ^ 64 = _
      have step : ((acc * 128 + u / 2 ^ (7 * k)) % 2 ^ 64 * 2 ^ (7 * k)
            + u % 2 ^ (7 * k)) % 2 ^ 64
          = ((acc * 128 + u / 2 ^ (7 * k)) * 2 ^ (7 * k)
            + u % 2 ^ (7 * k)) % 2 ^ 64 :=
        Nat.ModEq.add_right _ (Nat.ModEq.mul_right _ (Nat.mod_modEq _ _))
      rw [step]
      refine congrArg (· % 2 ^ 64) ?_
      have expand : (acc * 128 + u / 2 ^ (7 * k)) * 2 ^ (7 * k)
          = acc * (2 ^ 7 * 2 ^ (7 * k)) + 2 ^ (7 * k) * (u / 2 ^ (7 * k)) := by
        ring_nf
      rw [expand, ← pow_add, Nat.add_assoc, Nat.div_add_mod]
      have : 7 + 7 * k = 7 * (k + 1) := by ring
      rw [this]
    · have hk0 : k = 0 := by omega
      subst hk0
      rw [shortList_one, List.cons_append]
      have hu' : u < 128 := by
        have h2 : (2 : Nat) ^ (7 * 1) = 128 := rfl
        omega
      have hi8 : ¬ (8 ≤ i) := by omega
      have hp : u % 128 < 128 := Nat.mod_lt _ (by norm_num)
      rw [readAux, if_neg hi8, if_pos hp]
      have h1 : u % 128 = u := Nat.mod_eq_of_lt hu'
      rw [h1, h1]
      have h2 : (2 : Nat) ^ (7 * 1) = 128 := rfl
      rw [h2]

theorem readAux_nineList (u : Nat) (rest : List Nat) (hu : u < 2 ^ 64) :
    readAux (nineList u ++ rest) 0 0 = some (u, 9) := by
  have hge : ∀ x : Nat, ¬ (x % 128 + 128 < 128) := fun x => by omega
  simp only [nineList, List.cons_append, readAux]
  norm_num [hge]
  omega

lemma lt_two_pow_bitLen (u : Nat) : u < 2 ^ Squeak.bitLen u := by
  unfold Squeak.bitLen
  split
  · omega
  · exact (Nat.log2_lt (by assumption)).mp (Nat.lt_succ_self _)

lemma bitLen_le (u m : Nat) (h : u < 2 ^ m) : Squeak.bitLen u ≤ m := by
  unfold Squeak.bitLen
  split
  · omega
  · have := (Nat.log2_lt (by assumption)).mpr h
    omega

lemma le_bitLen (u m : Nat) (hu : u ≠ 0) (h : 2 ^ m ≤ u) :
    m + 1 ≤ Squeak.bitLen u := by
  unfold Squeak.bitLen
  rw [if_neg hu]
  have := (Nat.le_log2 hu).mpr h
  omega

lemma toU64_nonneg (v : Int) (h0 : 0 ≤ v) (h1 : v < 2 ^ 64) :
    toU64 v = v.toNat := by
  unfold toU64
  rw [Int.emod_eq_of_lt h0 (by exact_mod_cast h1)]

lemma toU64_neg (v : Int) (h0 : -(2 ^ 64) ≤ v) (h1 : v < 0) :
    toU64 v = (v + 2 ^ 64).toNat := by
  unfold toU64
  have : v % (2 ^ 64 : Int) = v + 2 ^ 64 := by omega
  rw [this]

/-- The varint round-trip that actually holds: values that are nonnegative or
at most -(2 ^ 54) (those the encoder writes in an invertible form) decode to
themselves; the consumed length always equals the written length.  Stated with
an arbitrary suffix so the record codec can reuse it. -/
theorem read_write_append (v : Int) (rest : List Nat)
    (hlo : -(2 ^ 63) ≤ v) (hhi : v < 2 ^ 63) (hd : 0 ≤ v ∨ v ≤ -(2 ^ 54)) :
    read (Varint.write v ++ rest) = some (v, (Varint.write v).length) := by
  rcases hd with hpos | hneg
  · have hap : absPat v = v.toNat := by
      unfold absPat
      rw [if_neg (by omega)]
    have hv64 : v < 2 ^ 64 := by
      have h : (2 : Int) ^ 63 < 2 ^ 64 := by norm_num
      omega
    have hu64 : toU64 v = v.toNat := toU64_nonneg v hpos hv64
    have hvle : v.toNat < 2 ^ 63 := by omega
    unfold Varint.write
    rw [hap, hu64]
    set u := v.toNat with hu
    have hu64sz : u < 2 ^ 64 := by
      have h : (2 : Nat) ^ 63 < 2 ^ 64 := by norm_num
      omega
    have hival : u64ToI64 u = v := by
      unfold u64ToI64
      rw [if_pos hvle]
      exact Int.toNat_of_nonneg hpos
    by_cases h9 : 9 ≤ (64 - leadingZeros64 u + 1 + 7) / 7
    · rw [if_pos h9]
      unfold read
      rw [readAux_nineList u rest hu64sz, nineList_length, Option.map_some', hival]
    · rw [if_neg h9]
      set k := (64 - leadingZeros64 u + 1 + 7) / 7 with hkdef
      have hbl : Squeak.bitLen u ≤ 63 := bitLen_le u 63 hvle
      have hlz : leadingZeros64 u = 64 - Squeak.bitLen u := rfl
      have hk8 : k ≤ 8 := by omega
      have hk1 : 1 ≤ k := by
        rw [hkdef, hlz]
        omega
      have hbk : Squeak.bitLen u + 1 ≤ 7 * k := by
        rw [hkdef, hlz]
        omega
      have huk : u < 2 ^ (7 * k) := by
        calc u < 2 ^ Squeak.bitLen u := lt_two_pow_bitLen u
          _ ≤ 2 ^ (7 * k) := Nat.pow_le_pow_right (by norm_num) (by omega)
      unfold read
      rw [readAux_shortList k 0 0 u rest hk1 (by omega) huk]
      have hmod : (0 * 2 ^ (7 * k) + u) % 2 ^ 64 = u := by
        rw [Nat.zero_mul, Nat.zero_add]
        refine Nat.mod_eq_of_lt ?_
        calc u < 2 ^ (7 * k) := huk
          _ ≤ 2 ^ 64 := Nat.pow_le_pow_right (by norm_num) (by omega)
      rw [hmod, shortList_length, Option.map_some', hival]
      norm_num
  · have hv0 : v < 0 := by
      have : (0:Int) < 2 ^ 54 := by norm_num
      omega
    have hap : absPat v = (-v).toNat := by
      unfold absPat
      rw [if_pos hv0]
    set m := (-v).toNat with hm
    have hm54 : 2 ^ 54 ≤ m := by
      have h1 : (2 ^ 54 : Int) ≤ -v := by omega
      omega
    have hm63 : m ≤ 2 ^ 63 := by
      have h1 : -v ≤ (2 ^ 63 : Int) := by omega
      omega
    have hbl55 : 55 ≤ Squeak.bitLen m :=
      le_bitLen m 54 (by omega) hm54
    have hbl64 : Squeak.bitLen m ≤ 64 := by
      refine bitLen_le m 64 ?_
      have h : (2 : Nat) ^ 63 < 2 ^ 64 := by norm_num
      omega
    have hlz : leadingZeros64 m = 64 - Squeak.bitLen m := rfl
    have h9 : 9 ≤ (64 - leadingZeros64 m + 1 + 7) / 7 := by
      rw [hlz]
      omega
    unfold Varint.write
    rw [hap, if_pos h9]
    have hu64 : toU64 v = (v + 2 ^ 64).toNat :=
      toU64_neg v (by omega) hv0
    rw [hu64]
    set u := (v + 2 ^ 64).toNat with hu
    have huint : (u : Int) = v + 2 ^ 64 := Int.toNat_of_nonneg (by omega)
    have hub : u < 2 ^ 64 := by omega
    have hul : 2 ^ 63 ≤ u := by
      have : (2:Int) ^ 63 ≤ v + 2 ^ 64 := by omega
      omega
    unfold read
    rw [readAux_nineList u rest hub, nineList_length, Option.map_some']
    have hival : u64ToI64 u = v := by
      unfold u64ToI64
      rw [if_neg (by omega)]
      omega
    rw [hival]

theorem write_length_bounds (v : Int) :
    1 ≤ (Varint.write v).length ∧ (Varint.write v).length ≤ 9 := by
  have hlz : leadingZeros64 (absPat v) ≤ 64 := by
    unfold leadingZeros64
    omega
  simp only [Varint.write]
  split
  · simp [nineList_length]
  · rw [shortList_length]
    omega

end Varint

/-! ### Record codec lemmas -/

lemma div_pow_mod_pow (u a k c : Nat) (h : a + c ≤ k) :
    u % 2 ^ k / 2 ^ a % 2 ^ c = u / 2 ^ a % 2 ^ c := by
  rw [← Nat.mod_mul_right_div_self (u % 2 ^ k) (2 ^ a) (2 ^ c),
    ← Nat.mod_mul_right_div_self u (2 ^ a) (2 ^ c),
    ← pow_add, Nat.mod_mod_of_dvd _ (pow_dvd_pow 2 h)]

lemma beBytes_length (w n : Nat) : (beBytes w n).length = w := by
  simp [beBytes]

lemma beBytes_succ (w n : Nat) :
    beBytes (w + 1) n = (n / 2 ^ (8 * w) % 256) :: beBytes w (n % 2 ^ (8 * w)) := by
  unfold beBytes
  rw [List.range_succ_eq_map, List.map_cons, List.map_map]
  refine congrArg₂ _ ?_ ?_
  · have h0 : w + 1 - 1 - 0 = w := by omega
    rw [h0]
  · refine List.map_congr_left fun i hi => ?_
    have hik : i < w := List.mem_range.mp hi
    show n / 2 ^ (8 * (w + 1 - 1 - (i + 1))) % 256
        = n % 2 ^ (8 * w) / 2 ^ (8 * (w - 1 - i)) % 256
    have hj : w + 1 - 1 - (i + 1) = w - 1 - i := by omega
    rw [hj]
    have h256 : (256 : Nat) = 2 ^ 8 := rfl
    rw [h256, div_pow_mod_pow n (8 * (w - 1 - i)) (8 * w) 8 (by omega)]

lemma foldl_beBytes (w : Nat) :
    ∀ (n acc : Nat), n < 2 ^ (8 * w) →
      (beBytes w n).foldl (fun a b => a * 256 + b) acc = acc * 2 ^ (8 * w) + n := by
  induction w with
  | zero =>
    intro n acc h
    have hn : n = 0 := by
      have h1 : (2 : Nat) ^ (8 * 0) = 1 := rfl
      omega
    subst hn
    simp [beBytes]
  | succ w ih =>
    intro n acc h
    rw [beBytes_succ, List.foldl_cons]
    have hdiv : n / 2 ^ (8 * w) < 256 := by
      rw [Nat.div_lt_iff_lt_mul (Nat.pos_pow_of_pos _ (by norm_num))]
      calc n < 2 ^ (8 * (w + 1)) := h
        _ = 256 * 2 ^ (8 * w) := by
          rw [show 8 * (w + 1) = 8 + 8 * w by ring, pow_add]
          norm_num
    rw [Nat.mod_eq_of_lt hdiv,
      ih (n % 2 ^ (8 * w)) _ (Nat.mod_lt _ (Nat.pos_pow_of_pos _ (by norm_num)))]
    have expand : (acc * 256 + n / 2 ^ (8 * w)) * 2 ^ (8 * w)
        = acc * (256 * 2 ^ (8 * w)) + 2 ^ (8 * w) * (n / 2 ^ (8 * w)) := by ring
    rw [expand, Nat.add_assoc, Nat.div_add_mod]
    have h8 : 256 * 2 ^ (8 * w) = 2 ^ (8 * (w + 1)) := by
      rw [show 8 * (w + 1) = 8 + 8 * w by ring, pow_add]
      norm_num
    rw [h8]

lemma beNat_beBytes (w n : Nat) (h : n < 2 ^ (8 * w)) :
    beNat (beBytes w n) = n := by
  unfold beNat
  rw [foldl_beBytes w n 0 h]
  omega

lemma toPat_lt (w : Nat) (v : Int) : toPat w v < 2 ^ (8 * w) := by
  unfold toPat
  have hpos : (0 : Int) < 2 ^ (8 * w) := by positivity
  have h1 : v % ((2 : Int) ^ (8 * w)) < 2 ^ (8 * w) := Int.emod_lt_of_pos v hpos
  have h2 : (0 : Int) ≤ v % ((2 : Int) ^ (8 * w)) := Int.emod_nonneg v (by positivity)
  have h3 : v % ((2 : Int) ^ (8 * w)) < ((2 ^ (8 * w) : Nat) : Int) := by
    push_cast
    exact h1
  exact (Int.toNat_lt h2).mpr h3

lemma emod_of_neg_ge (v M : Int) (_hM : 0 < M) (h0 : -M ≤ v) (h1 : v < 0) :
    v % M = v + M := by
  have h2 : (v + M * 1) % M = v % M := Int.add_mul_emod_self_left v M 1
  have h3 : (v + M) % M = v + M := Int.emod_eq_of_lt (by omega) (by omega)
  have h4 : v + M * 1 = v + M := by ring
  rw [h4] at h2
  omega

lemma fromPat_toPat (w : Nat) (hw : 1 ≤ w) (v : Int)
    (hlo : -(2 ^ (8 * w - 1)) ≤ v) (hhi : v < 2 ^ (8 * w - 1)) :
    fromPat w (toPat w v) = v := by
  have hsplit : (2 : Int) ^ (8 * w) = 2 ^ (8 * w - 1) * 2 := by
    rw [← pow_succ]
    refine congrArg _ ?_
    omega
  have hsplitN : (2 : Nat) ^ (8 * w) = 2 ^ (8 * w - 1) * 2 := by
    rw [← pow_succ]
    refine congrArg _ ?_
    omega
  have hcast : ((2 ^ (8 * w - 1) : Nat) : Int) = (2 : Int) ^ (8 * w - 1) := by
    push_cast
    rfl
  rcases le_or_lt 0 v with hv | hv
  · have hm : v % ((2 : Int) ^ (8 * w)) = v :=
      Int.emod_eq_of_lt hv (by omega)
    unfold fromPat toPat
    rw [hm]
    have hvt : (v.toNat : Int) = v := Int.toNat_of_nonneg hv
    have hlt : v.toNat < 2 ^ (8 * w - 1) := by omega
    rw [if_pos hlt, hvt]
  · have hm : v % ((2 : Int) ^ (8 * w)) = v + 2 ^ (8 * w) :=
      emod_of_neg_ge v _ (by positivity) (by omega) hv
    unfold fromPat toPat
    rw [hm]
    have hge : (0 : Int) ≤ v + 2 ^ (8 * w) := by omega
    have hvt : (((v + 2 ^ (8 * w)).toNat : Int)) = v + 2 ^ (8 * w) :=
      Int.toNat_of_nonneg hge
    have hnlt : ¬ ((v + 2 ^ (8 * w)).toNat < 2 ^ (8 * w - 1)) := by omega
    rw [if_neg hnlt]
    have hc : ((2 ^ (8 * w) : Nat) : Int) = (2 : Int) ^ (8 * w) := by
      push_cast
      rfl
    omega

lemma fromPat_range (w n : Nat) (hw : 1 ≤ w) (hn : n < 2 ^ (8 * w)) :
    -(2 ^ (8 * w - 1)) ≤ fromPat w n ∧ fromPat w n < 2 ^ (8 * w - 1) := by
  have hsplitN : (2 : Nat) ^ (8 * w) = 2 ^ (8 * w - 1) * 2 := by
    rw [← pow_succ]
    refine congrArg _ ?_
    omega
  have hcast : ((2 ^ (8 * w - 1) : Nat) : Int) = (2 : Int) ^ (8 * w - 1) := by
    push_cast
    rfl
  have hc : ((2 ^ (8 * w) : Nat) : Int) = (2 : Int) ^ (8 * w) := by
    push_cast
    rfl
  unfold fromPat
  split
  · constructor
    · have : (0 : Int) ≤ (n : Int) := by positivity
      have hp : (0 : Int) < 2 ^ (8 * w - 1) := by positivity
      omega
    · omega
  · constructor
    · omega
    · omega

lemma ofCode_code (v : SerialValue) (hwf : v.wf) :
    SerialType.ofCode v.serialType.code = some v.serialType := by
  cases v
  case blob b =>
    have hb : b.length ≤ 2 ^ 60 := hwf
    show SerialType.ofCode ((b.length : Int) * 2 + 12) = some (.blob b.length)
    set n := b.length with hn
    have hge : (0 : Int) ≤ (n : Int) := by positivity
    unfold SerialType.ofCode
    have e0 : ¬((n : Int) * 2 + 12 = 0) := by omega
    have e1 : ¬((n : Int) * 2 + 12 = 1) := by omega
    have e2 : ¬((n : Int) * 2 + 12 = 2) := by omega
    have e3 : ¬((n : Int) * 2 + 12 = 3) := by omega
    have e4 : ¬((n : Int) * 2 + 12 = 4) := by omega
    have e5 : ¬((n : Int) * 2 + 12 = 5) := by omega
    have e6 : ¬((n : Int) * 2 + 12 = 6) := by omega
    have e7 : ¬((n : Int) * 2 + 12 = 7) := by omega
    have e8 : ¬((n : Int) * 2 + 12 = 8) := by omega
    have e9 : ¬((n : Int) * 2 + 12 = 9) := by omega
    have e10 : ¬((n : Int) * 2 + 12 = 10 ∨ (n : Int) * 2 + 12 = 11) := by omega
    have epar : ((n : Int) * 2 + 12) % 2 = 0 := by omega
    rw [if_neg e0, if_neg e1, if_neg e2, if_neg e3, if_neg e4, if_neg e5, if_neg e6,
      if_neg e7, if_neg e8, if_neg e9, if_neg e10, if_pos epar]
    have h12 : (n : Int) * 2 + 12 - 12 = 2 * n := by ring
    have hlt : (2 * n : Int) < 2 ^ 64 := by
      have h60 : ((2 : Int) ^ 60) * 2 < 2 ^ 64 := by norm_num
      have hcast : ((n : Int)) ≤ ((2 ^ 60 : Nat) : Int) := by exact_mod_cast hb
      push_cast at hcast
      omega
    have hm : ((2 * n : Int)) % 2 ^ 64 = 2 * n :=
      Int.emod_eq_of_lt (by positivity) hlt
    rw [h12, hm]
    have ht : ((2 * n : Int)).toNat = 2 * n := by
      omega
    rw [ht]
    have : 2 * n / 2 = n := by omega
    rw [this]
  case text t =>
    have hb : t.length ≤ 2 ^ 60 := hwf
    show SerialType.ofCode ((t.length : Int) * 2 + 13) = some (.text t.length)
    set n := t.length with hn
    have hge : (0 : Int) ≤ (n : Int) := by positivity
    unfold SerialType.ofCode
    have f0 : ¬((n : Int) * 2 + 13 = 0) := by omega
    have f1 : ¬((n : Int) * 2 + 13 = 1) := by omega
    have f2 : ¬((n : Int) * 2 + 13 = 2) := by omega
    have f3 : ¬((n : Int) * 2 + 13 = 3) := by omega
    have f4 : ¬((n : Int) * 2 + 13 = 4) := by omega
    have f5 : ¬((n : Int) * 2 + 13 = 5) := by omega
    have f6 : ¬((n : Int) * 2 + 13 = 6) := by omega
    have f7 : ¬((n : Int) * 2 + 13 = 7) := by omega
    have f8 : ¬((n : Int) * 2 + 13 = 8) := by omega
    have f9 : ¬((n : Int) * 2 + 13 = 9) := by omega
    have f10 : ¬((n : Int) * 2 + 13 = 10 ∨ (n : Int) * 2 + 13 = 11) := by omega
    have fpar : ¬(((n : Int) * 2 + 13) % 2 = 0) := by omega
    rw [if_neg f0, if_neg f1, if_neg f2, if_neg f3, if_neg f4, if_neg f5, if_neg f6,
      if_neg f7, if_neg f8, if_neg f9, if_neg f10, if_neg fpar]
    have h13 : (n : Int) * 2 + 13 - 13 = 2 * n := by ring
    have hlt : (2 * n : Int) < 2 ^ 64 := by
      have h60 : ((2 : Int) ^ 60) * 2 < 2 ^ 64 := by norm_num
      have hcast : ((n : Int)) ≤ ((2 ^ 60 : Nat) : Int) := by exact_mod_cast hb
      push_cast at hcast
      omega
    have hm : ((2 * n : Int)) % 2 ^ 64 = 2 * n :=
      Int.emod_eq_of_lt (by positivity) hlt
    rw [h13, hm]
    have ht : ((2 * n : Int)).toNat = 2 * n := by
      omega
    rw [ht]
    have : 2 * n / 2 = n := by omega
    rw [this]
  all_goals rfl

/-- Bounds on the i64 value of a serial-type code of a well-formed value. -/
lemma code_bounds (v : SerialValue) (hwf : v.wf) :
    0 ≤ v.serialType.code ∧ v.serialType.code < 2 ^ 63 := by
  cases v
  case blob b =>
    have hb : b.length ≤ 2 ^ 60 := hwf
    show 0 ≤ (b.length : Int) * 2 + 12 ∧ (b.length : Int) * 2 + 12 < 2 ^ 63
    have hcast : ((b.length : Int)) ≤ ((2 ^ 60 : Nat) : Int) := by exact_mod_cast hb
    push_cast at hcast
    have hge : (0 : Int) ≤ (b.length : Int) := by positivity
    constructor
    · omega
    · have : ((2 : Int) ^ 60) * 2 + 12 < 2 ^ 63 := by norm_num
      omega
  case text t =>
    have hb : t.length ≤ 2 ^ 60 := hwf
    show 0 ≤ (t.length : Int) * 2 + 13 ∧ (t.length : Int) * 2 + 13 < 2 ^ 63
    have hcast : ((t.length : Int)) ≤ ((2 ^ 60 : Nat) : Int) := by exact_mod_cast hb
    push_cast at hcast
    have hge : (0 : Int) ≤ (t.length : Int) := by positivity
    constructor
    · omega
    · have : ((2 : Int) ^ 60) * 2 + 13 < 2 ^ 63 := by norm_num
      omega
  all_goals
    constructor <;> norm_num [SerialValue.serialType, SerialType.code]

lemma consume_write (v : SerialValue) (hwf : v.wf) (rest : List Nat) :
    SerialValue.consume v.serialType (v.writeBytes ++ rest) = some (v, rest) := by
  have hwidth : ∀ (w : Nat) (x : Int), 1 ≤ w →
      -(2 ^ (8 * w - 1)) ≤ x → x < 2 ^ (8 * w - 1) →
      fromPat w (beNat ((beBytes w (toPat w x) ++ rest).take w)) = x ∧
        (beBytes w (toPat w x) ++ rest).drop w = rest := by
    intro w x hw hlo hhi
    constructor
    · rw [List.take_left' (beBytes_length w _), beNat_beBytes w _ (toPat_lt w x),
        fromPat_toPat w hw x hlo hhi]
    · rw [List.drop_left' (beBytes_length w _)]
  cases v with
  | null => simp [SerialValue.serialType, SerialValue.writeBytes, SerialValue.consume]
  | zero => simp [SerialValue.serialType, SerialValue.writeBytes, SerialValue.consume]
  | one => simp [SerialValue.serialType, SerialValue.writeBytes, SerialValue.consume]
  | i8 x =>
    obtain ⟨h1, h2⟩ := hwidth 1 x (by norm_num) hwf.1 hwf.2
    simp only [SerialValue.serialType, SerialValue.writeBytes, SerialValue.consume]
    rw [if_pos (by simp [beBytes_length])]
    rw [h1, h2]
  | i16 x =>
    obtain ⟨h1, h2⟩ := hwidth 2 x (by norm_num) hwf.1 hwf.2
    simp only [SerialValue.serialType, SerialValue.writeBytes, SerialValue.consume]
    rw [if_pos (by simp [beBytes_length])]
    rw [h1, h2]
  | i24 x =>
    obtain ⟨h1, h2⟩ := hwidth 3 x (by norm_num) hwf.1 hwf.2
    simp only [SerialValue.serialType, SerialValue.writeBytes, SerialValue.consume]
    rw [if_pos (by simp [beBytes_length])]
    rw [h1, h2]
  | i32 x =>
    obtain ⟨h1, h2⟩ := hwidth 4 x (by norm_num) hwf.1 hwf.2
    simp only [SerialValue.serialType, SerialValue.writeBytes, SerialValue.consume]
    rw [if_pos (by simp [beBytes_length])]
    rw [h1, h2]
  | i48 x =>
    obtain ⟨h1, h2⟩ := hwidth 6 x (by norm_num) hwf.1 hwf.2
    simp only [SerialValue.serialType, SerialValue.writeBytes, SerialValue.consume]
    rw [if_pos (by simp [beBytes_length])]
    rw [h1, h2]
  | i64 x =>
    obtain ⟨h1, h2⟩ := hwidth 8 x (by norm_num) hwf.1 hwf.2
    simp only [SerialValue.serialType, SerialValue.writeBytes, SerialValue.consume]
    rw [if_pos (by simp [beBytes_length])]
    rw [h1, h2]
  | f64 bits =>
    have hb : bits < 2 ^ 64 := hwf
    simp only [SerialValue.serialType, SerialValue.writeBytes, SerialValue.consume]
    rw [if_pos (by simp [beBytes_length])]
    rw [List.take_left' (beBytes_length 8 _), beNat_beBytes 8 bits hb,
      List.drop_left' (beBytes_length 8 _)]
  | blob b =>
    simp only [SerialValue.serialType, SerialValue.writeBytes, SerialValue.consume]
    rw [if_pos (by simp)]
    rw [List.take_left' rfl, List.drop_left' rfl]
  | text t =>
    simp only [SerialValue.serialType, SerialValue.writeBytes, SerialValue.consume]
    rw [if_pos (by simp)]
    rw [List.take_left' rfl, List.drop_left' rfl]

lemma decodeValues_concat (values : List SerialValue) (extra : List Nat)
    (hwf : ∀ v ∈ values, v.wf) :
    decodeValuesLoop (values.map SerialValue.serialType)
      (values.flatMap SerialValue.writeBytes ++ extra) = some values := by
  induction values with
  | nil => simp [decodeValuesLoop]
  | cons v vs ih =>
    have h1 := consume_write v (hwf v (by simp)) (vs.flatMap SerialValue.writeBytes ++ extra)
    simp only [List.map_cons, List.flatMap_cons, List.append_assoc, decodeValuesLoop, h1]
    rw [ih fun u hu => hwf u (by simp [hu])]

lemma decodeTypes_concat (values : List SerialValue) (hwf : ∀ v ∈ values, v.wf) :
    decodeTypesLoop (values.flatMap fun v => Varint.write v.serialType.code)
      = some (values.map SerialValue.serialType) := by
  induction values with
  | nil => simp [decodeTypesLoop]
  | cons v vs ih =>
    simp only [List.flatMap_cons, List.map_cons]
    have hcb := code_bounds v (hwf v (by simp))
    set c := v.serialType.code with hcdef
    set restBytes := vs.flatMap fun u => Varint.write u.serialType.code with hrb
    have hread := Varint.read_write_append c restBytes (by omega) hcb.2 (Or.inl hcb.1)
    cases hsplit : Varint.write c with
    | nil =>
      have h1 := (Varint.write_length_bounds c).1
      rw [hsplit] at h1
      simp at h1
    | cons b t =>
      have hlen : (Varint.write c).length = t.length + 1 := by
        rw [hsplit, List.length_cons]
      rw [hsplit, List.cons_append] at hread
      rw [List.cons_append, decodeTypesLoop]
      simp only [hread, ofCode_code v (hwf v (by simp)), List.length_cons,
        Nat.add_sub_cancel, List.drop_left]
      rw [ih fun u hu => hwf u (by simp [hu])]

lemma absPat_natCast (x : Nat) : absPat ((x : Nat) : Int) = x := by
  unfold absPat
  rw [if_neg (by omega)]
  simp

lemma toU64_natCast (x : Nat) (h : x < 2 ^ 64) : toU64 ((x : Nat) : Int) = x := by
  unfold toU64
  rw [Int.emod_eq_of_lt (by positivity) (by exact_mod_cast h)]
  simp

lemma bitLen_mono (x y : Nat) (h : x ≤ y) : bitLen x ≤ bitLen y := by
  unfold bitLen
  by_cases hx : x = 0
  · rw [if_pos hx]
    omega
  · have hy : y ≠ 0 := by omega
    rw [if_neg hx, if_neg hy]
    have h1 : 2 ^ Nat.log2 x ≤ x := Nat.log2_self_le hx
    have h2 := (Nat.le_log2 hy).mpr (le_trans h1 h)
    omega

lemma write_length_natCast (x : Nat) :
    (Varint.write ((x : Nat) : Int)).length =
      if 9 ≤ (64 - leadingZeros64 x + 1 + 7) / 7 then 9
      else (64 - leadingZeros64 x + 1 + 7) / 7 := by
  simp only [Varint.write, absPat_natCast]
  split
  · rw [Varint.nineList_length]
  · rw [Varint.shortList_length]

lemma write_length_mono (x y : Nat) (h : x ≤ y) :
    (Varint.write ((x : Nat) : Int)).length ≤ (Varint.write ((y : Nat) : Int)).length := by
  rw [write_length_natCast, write_length_natCast]
  have hb := bitLen_mono x y h
  have hx : 64 - leadingZeros64 x = min (bitLen x) 64 := by
    unfold leadingZeros64
    omega
  have hy : 64 - leadingZeros64 y = min (bitLen y) 64 := by
    unfold leadingZeros64
    omega
  rw [hx, hy]
  have hm : min (bitLen x) 64 ≤ min (bitLen y) 64 := by omega
  split <;> split <;> omega

lemma headerLoop_exit (L : Nat) (fuel : Nat) :
    ∀ (w : Nat), (∃ p, p ≤ w ∧ w = L + (Varint.write ((p : Nat) : Int)).length) →
      L + 9 ≤ w + fuel →
      headerLoop L fuel w = L + (Varint.write ((headerLoop L fuel w : Nat) : Int)).length := by
  induction fuel with
  | zero =>
    rintro w ⟨p, hp, hw⟩ hf
    simp only [headerLoop]
    have h9 := (Varint.write_length_bounds ((w : Nat) : Int)).2
    have hmono := write_length_mono p w hp
    omega
  | succ fuel ih =>
    rintro w ⟨p, hp, hw⟩ hf
    simp only [headerLoop]
    split
    · rename_i hcond
      refine ih _ ⟨w, by omega, rfl⟩ (by omega)
    · rename_i hcond
      have hmono := write_length_mono p w hp
      omega

lemma write_zero_length : (Varint.write ((0 : Nat) : Int)).length = 1 := by decide

lemma headerValue_exit (L : Nat) :
    headerValue L = L + (Varint.write ((headerValue L : Nat) : Int)).length := by
  unfold headerValue
  refine headerLoop_exit L 9 (L + 1) ⟨0, by omega, ?_⟩ (by omega)
  rw [write_zero_length]

lemma headerValue_le (L : Nat) : headerValue L ≤ L + 9 := by
  have h := headerValue_exit L
  have h9 := (Varint.write_length_bounds ((headerValue L : Nat) : Int)).2
  omega

lemma typesBytes_length_le (values : List SerialValue) :
    (values.flatMap fun v => Varint.write v.serialType.code).length
      ≤ 9 * values.length := by
  induction values with
  | nil => simp
  | cons v vs ih =>
    simp only [List.flatMap_cons, List.length_append, List.length_cons]
    have h9 := (Varint.write_length_bounds v.serialType.code).2
    omega

/-- The record codec round-trip at the SerialValue level: decoding the bytes
the encoder produces yields exactly the encoded value list. -/
theorem decode_recordBytes (values : List SerialValue)
    (hwf : ∀ v ∈ values, v.wf) (hlen : values.length ≤ 2 ^ 50) :
    decodeRecord (recordBytes values) = some values := by
  have hrb : recordBytes values =
      Varint.write ((headerValue
          (values.flatMap fun v => Varint.write v.serialType.code).length : Nat) : Int)
        ++ (values.flatMap fun v => Varint.write v.serialType.code)
        ++ values.flatMap SerialValue.writeBytes := rfl
  set typesBytes := values.flatMap fun v => Varint.write v.serialType.code with hT
  set valuesBytes := values.flatMap SerialValue.writeBytes with hV
  set L := typesBytes.length with hL
  set w := headerValue L with hwdef
  have hexit : w = L + (Varint.write ((w : Nat) : Int)).length := headerValue_exit L
  set c := (Varint.write ((w : Nat) : Int)).length with hc
  have hc9 : 1 ≤ c ∧ c ≤ 9 := Varint.write_length_bounds _
  have hL9 : L ≤ 9 * values.length := typesBytes_length_le values
  have hwnat : w < 2 ^ 62 := by
    have h1 : headerValue L ≤ L + 9 := headerValue_le L
    have h2 : (9 : Nat) * 2 ^ 50 + 9 < 2 ^ 62 := by norm_num
    omega
  have hwint : ((w : Nat) : Int) < 2 ^ 63 := by
    have h2 : ((2 ^ 62 : Nat) : Int) < 2 ^ 63 := by norm_num
    have h3 : ((w : Nat) : Int) < ((2 ^ 62 : Nat) : Int) := by exact_mod_cast hwnat
    omega
  have hread := Varint.read_write_append ((w : Nat) : Int)
    (typesBytes ++ valuesBytes) (by omega) hwint (Or.inl (by omega))
  have hread2 : Varint.read (Varint.write ((w : Nat) : Int) ++ typesBytes ++ valuesBytes)
      = some (((w : Nat) : Int), c) := by
    rw [List.append_assoc, hread, hc]
  rw [hrb]
  unfold decodeRecord
  rw [hread2]
  have hu64 : toU64 ((w : Nat) : Int) = w := by
    refine toU64_natCast w ?_
    have h64 : (2 : Nat) ^ 62 < 2 ^ 64 := by norm_num
    omega
  simp only [hu64]
  have hlen1 : (Varint.write ((w : Nat) : Int) ++ typesBytes).length = w := by
    rw [List.length_append, ← hc]
    omega
  have hdatalen : (Varint.write ((w : Nat) : Int) ++ typesBytes ++ valuesBytes).length
      = w + valuesBytes.length := by
    rw [List.length_append, hlen1]
  rw [if_neg (by omega), if_neg (by omega)]
  rw [List.take_left' hlen1, List.drop_left' hlen1]
  have hdrop : (Varint.write ((w : Nat) : Int) ++ typesBytes).drop c = typesBytes :=
    List.drop_left' rfl
  rw [hdrop, decodeTypes_concat values hwf]
  have hvals := decodeValues_concat values [] hwf
  rw [List.append_nil] at hvals
  rw [← hV] at hvals
  exact hvals

/-! ### Table iterator lemmas -/

lemma fromIndex_zero (t : TTree) : fromIndex t 0 = inorder t := by
  cases t <;> simp [fromIndex, inorder]

lemma fromIndex_interior_step (cells : List (TTree × Int)) (r : TTree) (i : Nat)
    (h : i < cells.length) :
    fromIndex (.interior cells r) i
      = inorder (cells.get ⟨i, h⟩).1 ++ fromIndex (.interior cells r) (i + 1) := by
  simp only [fromIndex]
  rw [List.drop_eq_getElem_cons h]
  simp [inorderCells, List.get_eq_getElem]

lemma fromIndex_leaf_step (cells : List (Int × List Nat)) (i : Nat)
    (h : i < cells.length) :
    fromIndex (.leaf cells) i = cells.get ⟨i, h⟩ :: fromIndex (.leaf cells) (i + 1) := by
  simp only [fromIndex]
  rw [List.drop_eq_getElem_cons h]
  simp [List.get_eq_getElem]

lemma fromIndex_leaf_exhausted (cells : List (Int × List Nat)) (i : Nat)
    (h : ¬ i < cells.length) : fromIndex (.leaf cells) i = [] := by
  simp only [fromIndex]
  exact List.drop_eq_nil_of_le (by omega)

lemma fromIndex_interior_exhausted (cells : List (TTree × Int)) (r : TTree) (i : Nat)
    (h : ¬ i < cells.length) : fromIndex (.interior cells r) i = [] := by
  simp only [fromIndex]
  rw [List.drop_eq_nil_of_le (by omega)]
  rfl

lemma stackDen_cons (p : TTree) (i : Nat) (rest : List (TTree × Nat)) :
    stackDen ((p, i) :: rest) = fromIndex p i ++ stackDen rest := by
  simp [stackDen]

/-- The iterator's full yield sequence is the still-to-visit rows, cut at the
exclusive max row id. -/
theorem tableEntriesFrom_den (s : TState) :
    tableEntriesFrom s = cutMax s.maxRowId (fromIndex s.page s.index ++ stackDen s.stack) := by
  induction s using tableEntriesFrom.induct with
  | case1 index stack maxR cells r h ih =>
    rw [tableEntriesFrom.eq_def]
    simp only [dif_pos h]
    rw [ih]
    simp only [fromIndex_interior_step cells r index h, fromIndex_zero, stackDen_cons,
      List.append_assoc]
  | case2 index maxR cells r h =>
    rw [tableEntriesFrom.eq_def]
    simp only [dif_neg h]
    rw [fromIndex_interior_exhausted cells r index h]
    cases maxR <;> simp [cutMax, stackDen]
  | case3 index maxR cells r h p i rest ih =>
    rw [tableEntriesFrom.eq_def]
    simp only [dif_neg h]
    rw [ih, fromIndex_interior_exhausted cells r index h, stackDen_cons]
    simp
  | case4 index stack cells h m hm =>
    rw [tableEntriesFrom.eq_def]
    simp only [dif_pos h, if_pos hm]
    rw [fromIndex_leaf_step cells index h]
    simp only [cutMax, List.cons_append, List.takeWhile_cons]
    rw [decide_eq_false (by omega)]
    simp
  | case5 index stack cells h m hm ih =>
    rw [tableEntriesFrom.eq_def]
    simp only [dif_pos h, if_neg hm]
    rw [ih, fromIndex_leaf_step cells index h]
    simp only [cutMax, List.cons_append, List.takeWhile_cons]
    rw [decide_eq_true (by omega)]
    simp
  | case6 index stack cells h ih =>
    rw [tableEntriesFrom.eq_def]
    simp only [dif_pos h]
    rw [ih, fromIndex_leaf_step cells index h]
    simp [cutMax]
  | case7 index maxR cells h =>
    rw [tableEntriesFrom.eq_def]
    simp only [dif_neg h]
    rw [fromIndex_leaf_exhausted cells index h]
    cases maxR <;> simp [cutMax, stackDen]
  | case8 index maxR cells h p i rest ih =>
    rw [tableEntriesFrom.eq_def]
    simp only [dif_neg h]
    rw [ih, fromIndex_leaf_exhausted cells index h, stackDen_cons]
    simp

lemma inorderCells_append (A B : List (TTree × Int)) :
    inorderCells (A ++ B) = inorderCells A ++ inorderCells B := by
  induction A with
  | nil => simp [inorderCells]
  | cons c rest ih =>
    show inorder c.1 ++ inorderCells (rest ++ B) = (inorder c.1 ++ inorderCells rest) ++ _
    rw [ih, List.append_assoc]

lemma inorderCells_split (cells : List (TTree × Int)) (cpi : Nat) (c : TTree × Int)
    (hc : cells[cpi]? = some c) :
    inorderCells cells
      = inorderCells (cells.take cpi) ++ inorder c.1 ++ inorderCells (cells.drop (cpi + 1)) := by
  obtain ⟨hlt, heq⟩ := List.getElem?_eq_some.mp hc
  conv_lhs => rw [← List.take_append_drop cpi cells]
  rw [inorderCells_append, List.drop_eq_getElem_cons hlt, heq]
  show _ ++ (inorder c.1 ++ inorderCells (cells.drop (cpi + 1))) = _
  rw [List.append_assoc]

mutual
theorem twf_keys (t : TTree) (lo hi : Option Int) (h : TWF t lo hi) :
    ∀ x ∈ inorder t, (∀ l ∈ lo, l < x.1) ∧ (∀ b ∈ hi, x.1 ≤ b) := by
  cases t with
  | leaf cells =>
    intro x hx
    exact (h.2 x hx)
  | interior cells r =>
    exact twfCells_keys cells lo hi h
theorem twfCells_keys (cells : List (TTree × Int)) (lo hi : Option Int)
    (h : TWFCells cells lo hi) :
    ∀ x ∈ inorderCells cells, (∀ l ∈ lo, l < x.1) ∧ (∀ b ∈ hi, x.1 ≤ b) := by
  cases cells with
  | nil => intro x hx; simp [inorderCells] at hx
  | cons c rest =>
    obtain ⟨hwf1, hlo2, hhi2, hrest⟩ := h
    intro x hx
    rw [show inorderCells (c :: rest) = inorder c.1 ++ inorderCells rest from rfl,
      List.mem_append] at hx
    rcases hx with hx | hx
    · obtain ⟨hl, hh⟩ := twf_keys c.1 lo (some c.2) hwf1 x hx
      refine ⟨hl, ?_⟩
      intro b hb
      have h1 : x.1 ≤ c.2 := hh c.2 (by rfl)
      have h2 : c.2 ≤ b := hhi2 b hb
      omega
    · obtain ⟨hl, hh⟩ := twfCells_keys rest (some c.2) hi hrest x hx
      refine ⟨?_, hh⟩
      intro l hl2
      have h1 : c.2 < x.1 := hl c.2 (by rfl)
      have h2 : l < c.2 := hlo2 l hl2
      omega
end

mutual
theorem twf_sorted (t : TTree) (lo hi : Option Int) (h : TWF t lo hi) :
    List.Pairwise (· < ·) ((inorder t).map Prod.fst) := by
  cases t with
  | leaf cells => exact h.1
  | interior cells r => exact twfCells_sorted cells lo hi h
theorem twfCells_sorted (cells : List (TTree × Int)) (lo hi : Option Int)
    (h : TWFCells cells lo hi) :
    List.Pairwise (· < ·) ((inorderCells cells).map Prod.fst) := by
  cases cells with
  | nil => simp [inorderCells]
  | cons c rest =>
    obtain ⟨hwf1, hlo2, hhi2, hrest⟩ := h
    rw [show inorderCells (c :: rest) = inorder c.1 ++ inorderCells rest from rfl,
      List.map_append, List.pairwise_append]
    refine ⟨twf_sorted c.1 lo (some c.2) hwf1, twfCells_sorted rest (some c.2) hi hrest, ?_⟩
    intro a ha b hb
    obtain ⟨x, hx, hxa⟩ := List.mem_map.mp ha
    obtain ⟨y, hy, hyb⟩ := List.mem_map.mp hb
    have h1 : x.1 ≤ c.2 := (twf_keys c.1 lo (some c.2) hwf1 x hx).2 c.2 (by rfl)
    have h2 : c.2 < y.1 := (twfCells_keys rest (some c.2) hi hrest y hy).1 c.2 (by rfl)
    omega
end

lemma dropWhile_append_of_forall_not {α : Type} (p : α → Bool) (A B : List α)
    (hB : ∀ x ∈ B, p x = false) :
    (A ++ B).dropWhile p = A.dropWhile p ++ B := by
  induction A with
  | nil =>
    cases B with
    | nil => rfl
    | cons b rest =>
      simp [List.dropWhile_cons, hB b (by simp)]
  | cons a rest ih =>
    simp only [List.cons_append, List.dropWhile_cons]
    split
    · exact ih
    · rfl

lemma dropWhile_append_of_forall {α : Type} (p : α → Bool) (A B : List α)
    (hA : ∀ x ∈ A, p x = true) :
    (A ++ B).dropWhile p = B.dropWhile p := by
  induction A with
  | nil => rfl
  | cons a rest ih =>
    simp only [List.cons_append, List.dropWhile_cons, hA a (by simp)]
    exact ih fun x hx => hA x (by simp [hx])

lemma prefCountL_le (cells : List (Int × List Nat)) (a : Int) :
    prefCountL cells a ≤ cells.length := by
  induction cells with
  | nil => simp [prefCountL]
  | cons c rest ih =>
    rw [prefCountL]
    split
    · simp
    · simp
      omega

lemma dropWhile_le_eq_drop (cells : List (Int × List Nat)) (a : Int) :
    (cells.dropWhile fun c => decide (c.1 ≤ a)) = cells.drop (prefCountL cells a) := by
  induction cells with
  | nil => rfl
  | cons c rest ih =>
    by_cases hca : a < c.1
    · rw [prefCountL, if_pos hca, List.drop_zero, List.dropWhile_cons]
      have hd : decide (c.1 ≤ a) = false := decide_eq_false (by omega)
      simp [hd]
    · rw [prefCountL, if_neg hca, List.dropWhile_cons]
      have hd : decide (c.1 ≤ a) = true := decide_eq_true (by omega)
      simp only [hd, if_true, List.drop_succ_cons]
      exact ih

lemma twfCells_scan (cells : List (TTree × Int)) (a : Int) :
    ∀ (lo hi : Option Int) (c : TTree × Int),
      TWFCells cells lo hi → cells[childIndexScan cells a]? = some c →
      (∃ lo2, TWF c.1 lo2 (some c.2)) ∧ a < c.2 ∧
      (∀ x ∈ inorderCells (cells.take (childIndexScan cells a)), x.1 ≤ a) ∧
      (∀ x ∈ inorderCells (cells.drop (childIndexScan cells a + 1)), a < x.1) := by
  induction cells with
  | nil =>
    intro lo hi c _ hc
    simp at hc
  | cons c0 rest ih =>
    intro lo hi c hw hc
    obtain ⟨hwf1, hlo2, hhi2, hrest⟩ := hw
    by_cases hca : a < c0.2
    · simp only [childIndexScan, if_pos hca] at hc ⊢
      have hceq : c = c0 := by
        rw [List.getElem?_cons_zero] at hc
        exact (Option.some_inj.mp hc).symm
      subst hceq
      refine ⟨⟨lo, hwf1⟩, hca, ?_, ?_⟩
      · intro x hx
        simp [inorderCells] at hx
      · simp only [Nat.zero_add, List.drop_succ_cons, List.drop_zero]
        intro x hx
        have hk := (twfCells_keys rest (some c.2) hi hrest x hx).1 c.2 rfl
        omega
    · simp only [childIndexScan, if_neg hca] at hc ⊢
      rw [List.getElem?_cons_succ] at hc
      obtain ⟨hlo2r, hca2, htake, hdrop⟩ := ih (some c0.2) hi c hrest hc
      refine ⟨hlo2r, hca2, ?_, ?_⟩
      · intro x hx
        rw [List.take_succ_cons,
          show inorderCells (c0 :: List.take (childIndexScan rest a) rest)
            = inorder c0.1 ++ inorderCells (List.take (childIndexScan rest a) rest) from rfl,
          List.mem_append] at hx
        rcases hx with hx | hx
        · have hk := (twf_keys c0.1 lo (some c0.2) hwf1 x hx).2 c0.2 rfl
          omega
        · exact htake x hx
      · intro x hx
        rw [List.drop_succ_cons] at hx
        exact hdrop x hx

/-- Where seek lands: the landing page is a leaf whose cells come from the
tree's scan order, and the rows still to visit are the landing cell (the last
leading leaf cell with key at most the target, if any) followed by every row
of the tree with key above the target. -/
theorem seekGo_den :
    ∀ (t : TTree) (a : Int) (st : List (TTree × Nat)),
      ∀ (lo hi : Option Int), TWF t lo hi →
      ∀ res, seekGo t a st = some res →
      ∃ cellsL,
        res.1 = TTree.leaf cellsL ∧
        (∀ x ∈ cellsL, x ∈ inorder t) ∧
        fromIndex res.1 res.2.1 ++ stackDen res.2.2
          = (cellsL.take (prefCountL cellsL a)).drop (prefCountL cellsL a - 1)
            ++ ((inorder t).dropWhile fun c => decide (c.1 ≤ a)) ++ stackDen st := by
  intro t0 a0 st0
  induction t0, a0, st0 using seekGo.induct with
  | case1 a st cells =>
    intro lo hi hwf res hres
    rw [seekGo] at hres
    have hres2 : res = (TTree.leaf cells, leafIndexScan cells a, st) :=
      (Option.some_inj.mp hres).symm
    subst hres2
    refine ⟨cells, rfl, fun x hx => hx, ?_⟩
    show (cells.drop (leafIndexScan cells a)) ++ stackDen st = _
    set k := prefCountL cells a with hk
    have hkle := prefCountL_le cells a
    have hsplit : cells.drop (k - 1) = (cells.take k).drop (k - 1) ++ cells.drop k := by
      conv_lhs => rw [← List.take_append_drop k cells]
      rw [List.drop_append_eq_append_drop]
      have hlt : (cells.take k).length = k := by
        rw [List.length_take]
        omega
      rw [hlt, show k - 1 - k = 0 by omega, List.drop_zero]
    rw [leafIndexScan, ← hk, hsplit,
      show (inorder (TTree.leaf cells)) = cells from rfl,
      dropWhile_le_eq_drop cells a, ← hk, List.append_assoc]
  | case2 a st cells rightMost cpi hc =>
    intro lo hi hwf res hres
    have hc2 : cells[childIndexScan cells a]? = none := hc
    rw [seekGo] at hres
    split at hres
    · exact absurd hres (by simp)
    · rename_i c2 heq
      rw [hc2] at heq
      exact absurd heq (by simp)
  | case3 a st cells rightMost cpi c hc ih =>
    intro lo hi hwf res hres
    have hc2 : cells[childIndexScan cells a]? = some c := hc
    rw [seekGo] at hres
    split at hres
    · rename_i heq
      rw [hc2] at heq
      exact absurd heq (by simp)
    · rename_i c2 heq
      rw [hc2] at heq
      obtain rfl : c = c2 := Option.some_inj.mp heq
      obtain ⟨hlo2, hac, htake, hdrop⟩ := twfCells_scan cells a lo hi c hwf hc2
      obtain ⟨lo2, hwfc⟩ := hlo2
      obtain ⟨cellsL, hleaf, hmem, hden⟩ := ih lo2 (some c.2) hwfc res hres
      have hsplitIn : inorder (TTree.interior cells rightMost)
          = inorderCells (cells.take cpi) ++ inorder c.1
            ++ inorderCells (cells.drop (cpi + 1)) := inorderCells_split cells cpi c hc
      refine ⟨cellsL, hleaf, ?_, ?_⟩
      · intro x hx
        rw [hsplitIn]
        have := hmem x hx
        simp [this]
      · rw [hden, stackDen_cons]
        have hdw : (inorder (TTree.interior cells rightMost)).dropWhile
              (fun c => decide (c.1 ≤ a))
            = (inorder c.1).dropWhile (fun c => decide (c.1 ≤ a))
              ++ inorderCells (cells.drop (cpi + 1)) := by
          rw [hsplitIn, List.append_assoc,
            dropWhile_append_of_forall _ _ _
              (fun x hx => decide_eq_true (htake x hx)),
            dropWhile_append_of_forall_not _ _ _
              (fun x hx => decide_eq_false (by have := hdrop x hx; omega))]
        rw [hdw]
        show _ ++ _ ++ (fromIndex (TTree.interior cells rightMost) (cpi + 1) ++ stackDen st) = _
        rw [show fromIndex (TTree.interior cells rightMost) (cpi + 1)
            = inorderCells (cells.drop (cpi + 1)) from rfl]
        simp only [List.append_assoc]

lemma take_prefCount_le (cells : List (Int × List Nat)) (a : Int) :
    ∀ x ∈ cells.take (prefCountL cells a), x.1 ≤ a := by
  induction cells with
  | nil => simp
  | cons c rest ih =>
    rw [prefCountL]
    split
    · simp
    · rename_i hgt
      intro x hx
      simp only [List.take_succ_cons, List.mem_cons] at hx
      rcases hx with rfl | hx
      · omega
      · exact ih x hx

lemma seek_extra (cellsL : List (Int × List Nat)) (a : Int) :
    (cellsL.take (prefCountL cellsL a)).drop (prefCountL cellsL a - 1) = [] ∨
    ∃ r0, (cellsL.take (prefCountL cellsL a)).drop (prefCountL cellsL a - 1) = [r0] ∧
      r0 ∈ cellsL ∧ r0.1 ≤ a := by
  set k := prefCountL cellsL a with hk
  by_cases hk0 : k = 0
  · left
    simp [hk0]
  · right
    have hkle : k ≤ cellsL.length := hk ▸ prefCountL_le cellsL a
    have hlen : ((cellsL.take k).drop (k - 1)).length = 1 := by
      rw [List.length_drop, List.length_take]
      omega
    obtain ⟨r0, hr0⟩ := List.length_eq_one.mp hlen
    have hmemtake : r0 ∈ cellsL.take k := by
      have hin : r0 ∈ (cellsL.take k).drop (k - 1) := by
        rw [hr0]
        simp
      exact List.mem_of_mem_drop hin
    refine ⟨r0, hr0, List.mem_of_mem_take hmemtake, ?_⟩
    exact take_prefCount_le cellsL a r0 hmemtake

lemma sorted_dropWhile_gt (l : List (Int × List Nat)) (a : Int)
    (hs : List.Pairwise (· < ·) (l.map Prod.fst)) :
    ∀ x ∈ l.dropWhile (fun c => decide (c.1 ≤ a)), a < x.1 := by
  induction l with
  | nil => simp
  | cons c rest ih =>
    rw [List.map_cons, List.pairwise_cons] at hs
    rw [List.dropWhile_cons]
    by_cases hca : c.1 ≤ a
    · rw [if_pos (decide_eq_true hca)]
      exact ih hs.2
    · rw [if_neg (by simpa using hca)]
      intro x hx
      rcases List.mem_cons.mp hx with rfl | hx
      · omega
      · have := hs.1 x.1 (List.mem_map.mpr ⟨x, hx, rfl⟩)
        omega

lemma sorted_dropWhile_eq_filter (l : List (Int × List Nat)) (a : Int)
    (hs : List.Pairwise (· < ·) (l.map Prod.fst)) :
    l.dropWhile (fun c => decide (c.1 ≤ a)) = l.filter (fun c => decide (a < c.1)) := by
  induction l with
  | nil => rfl
  | cons c rest ih =>
    rw [List.map_cons, List.pairwise_cons] at hs
    rw [List.dropWhile_cons, List.filter_cons]
    by_cases hca : c.1 ≤ a
    · rw [if_pos (decide_eq_true hca), if_neg (by simpa using hca)]
      exact ih hs.2
    · rw [if_neg (by simpa using hca), if_pos (by simpa using hca)]
      congr 1
      have hall : ∀ x ∈ rest, decide (a < x.1) = true := by
        intro x hx
        have := hs.1 x.1 (List.mem_map.mpr ⟨x, hx, rfl⟩)
        exact decide_eq_true (by omega)
      rw [List.filter_eq_self.mpr hall]

lemma sorted_takeWhile_eq_filter (l : List (Int × List Nat)) (b : Int)
    (hs : List.Pairwise (· < ·) (l.map Prod.fst)) :
    l.takeWhile (fun c => decide (c.1 < b)) = l.filter (fun c => decide (c.1 < b)) := by
  induction l with
  | nil => rfl
  | cons c rest ih =>
    rw [List.map_cons, List.pairwise_cons] at hs
    rw [List.takeWhile_cons, List.filter_cons]
    by_cases hcb : c.1 < b
    · rw [if_pos (decide_eq_true hcb), if_pos (decide_eq_true hcb)]
      rw [ih hs.2]
    · rw [if_neg (by simpa using hcb), if_neg (by simpa using hcb)]
      have hall : ∀ x ∈ rest, ¬(decide (x.1 < b) = true) := by
        intro x hx
        have := hs.1 x.1 (List.mem_map.mpr ⟨x, hx, rfl⟩)
        simp only [decide_eq_true_eq]
        omega
      rw [List.filter_eq_nil_iff.mpr hall]

/-- Denotation of a start-bounded range scan: the yields are the end-bound
truncation of an extra segment (empty, or the single landing cell, a row of
the tree with key at most the start) followed by all rows with key above the
start. -/
lemma tableRange_start_den (t : TTree) (a : Int) (endB : Option Int)
    (hwf : TWF t none none) (ys : List (Int × List Nat))
    (hys : tableRangeYields t (some a) endB = some ys) :
    ∃ E, (E = [] ∨ ∃ r0, E = [r0] ∧ r0 ∈ inorder t ∧ r0.1 ≤ a) ∧
      ys = cutMax endB (E ++ (inorder t).dropWhile fun c => decide (c.1 ≤ a)) := by
  cases hseek : seekGo t a [] with
  | none =>
    simp only [tableRangeYields, tableWithRange, hseek, Option.map_none] at hys
    exact absurd hys (by simp)
  | some res =>
    simp only [tableRangeYields, tableWithRange, hseek] at hys
    obtain ⟨p, i, st⟩ := res
    rw [Option.map_some', Option.some_inj] at hys
    obtain ⟨cellsL, hleaf, hmem, hden⟩ := seekGo_den t a [] none none hwf (p, i, st) hseek
    have hys2 : ys = tableEntriesFrom ⟨p, i, st, endB⟩ := hys.symm
    rw [tableEntriesFrom_den] at hys2
    simp only at hys2
    refine ⟨(cellsL.take (prefCountL cellsL a)).drop (prefCountL cellsL a - 1), ?_, ?_⟩
    · rcases seek_extra cellsL a with h | ⟨r0, hr0, hr0mem, hr0le⟩
      · exact Or.inl h
      · exact Or.inr ⟨r0, hr0, hmem r0 hr0mem, hr0le⟩
    · rw [hys2]
      have hden2 : fromIndex p i ++ stackDen st
          = (cellsL.take (prefCountL cellsL a)).drop (prefCountL cellsL a - 1)
            ++ ((inorder t).dropWhile fun c => decide (c.1 ≤ a)) := by
        have := hden
        simp only [stackDen, List.flatMap_nil, List.append_nil] at this
        exact this
      rw [hden2]

lemma sorted_filter_map (l : List (Int × List Nat)) (p : Int × List Nat → Bool)
    (hs : List.Pairwise (· < ·) (l.map Prod.fst)) :
    List.Pairwise (· < ·) ((l.filter p).map Prod.fst) :=
  List.Pairwise.sublist (List.Sublist.map Prod.fst (List.filter_sublist l)) hs

/-- The yields of a fully bounded range scan: exactly the rows with key
strictly between the mapped bounds, possibly preceded by the single landing
row, whose key is at most the start bound. -/
lemma rangeYields_filter (t : TTree) (a b : Int)
    (hwf : TWF t none none) (ys : List (Int × List Nat))
    (hys : tableRangeYields t (some a) (some b) = some ys) :
    ys = (inorder t).filter (fun c => decide (a < c.1) && decide (c.1 < b)) ∨
    ∃ r0, r0 ∈ inorder t ∧ r0.1 ≤ a ∧ r0.1 < b ∧
      ys = r0 :: (inorder t).filter (fun c => decide (a < c.1) && decide (c.1 < b)) := by
  obtain ⟨E, hE, hys2⟩ := tableRange_start_den t a (some b) hwf ys hys
  have hsor : List.Pairwise (· < ·) ((inorder t).map Prod.fst) :=
    twf_sorted t none none hwf
  have hD : (inorder t).dropWhile (fun c => decide (c.1 ≤ a))
      = (inorder t).filter (fun c => decide (a < c.1)) :=
    sorted_dropWhile_eq_filter (inorder t) a hsor
  have hTF : ((inorder t).filter fun c => decide (a < c.1)).takeWhile
        (fun c => decide (c.1 < b))
      = (inorder t).filter (fun c => decide (a < c.1) && decide (c.1 < b)) := by
    rw [sorted_takeWhile_eq_filter _ b (sorted_filter_map _ _ hsor), List.filter_filter]
    congr 1
    funext c
    exact Bool.and_comm _ _
  have hDcut : cutMax (some b) ((inorder t).filter (fun c => decide (a < c.1)))
      = (inorder t).filter (fun c => decide (a < c.1) && decide (c.1 < b)) := hTF
  rcases hE with rfl | ⟨r0, rfl, hr0mem, hr0le⟩
  · left
    rw [hys2, List.nil_append, hD, hDcut]
  · by_cases hrb : r0.1 < b
    · right
      refine ⟨r0, hr0mem, hr0le, hrb, ?_⟩
      rw [hys2, List.singleton_append, hD]
      show ((r0 :: _).takeWhile fun c => decide (c.1 < b)) = _
      rw [List.takeWhile_cons, if_pos (decide_eq_true hrb), hTF]
    · left
      have hba : b ≤ a := by omega
      have hnil : (inorder t).filter (fun c => decide (a < c.1) && decide (c.1 < b)) = [] := by
        refine List.filter_eq_nil_iff.mpr ?_
        intro x hx
        simp only [Bool.and_eq_true, decide_eq_true_eq, not_and]
        intro h1 h2
        omega
      rw [hys2, List.singleton_append, hnil]
      show ((r0 :: _).takeWhile fun c => decide (c.1 < b)) = _
      rw [List.takeWhile_cons, if_neg (by simpa using hrb)]

/-- The head of an unbounded-end scan from a start bound: the landing row
(key at most the target) if the leaf loop found one, otherwise the least row
with key above the target, otherwise nothing. -/
lemma tableGet_den (t : TTree) (r : Int) (hwf : TWF t none none)
    (res : Option (Int × List Nat)) (hres : tableGet t r = some res) :
    (res = none → ∀ x ∈ inorder t, x.1 ≤ r) ∧
    ∀ row, res = some row → row ∈ inorder t ∧
      (row.1 ≤ r ∨ (r < row.1 ∧ ∀ x ∈ inorder t, r < x.1 → row.1 ≤ x.1)) := by
  unfold tableGet at hres
  cases hys : tableRangeYields t (some r) none with
  | none =>
    rw [hys] at hres
    exact absurd hres (by simp)
  | some ys =>
    rw [hys, Option.map_some', Option.some_inj] at hres
    obtain ⟨E, hE, hys2⟩ := tableRange_start_den t r none hwf ys hys
    have hsor : List.Pairwise (· < ·) ((inorder t).map Prod.fst) :=
      twf_sorted t none none hwf
    have hD : (inorder t).dropWhile (fun c => decide (c.1 ≤ r))
        = (inorder t).filter (fun c => decide (r < c.1)) :=
      sorted_dropWhile_eq_filter (inorder t) r hsor
    simp only [cutMax] at hys2
    rcases hE with rfl | ⟨r0, rfl, hr0mem, hr0le⟩
    · rw [List.nil_append, hD] at hys2
      cases hfil : (inorder t).filter (fun c => decide (r < c.1)) with
      | nil =>
        rw [hfil] at hys2
        subst hys2
        simp only [List.head?_nil] at hres
        subst hres
        refine ⟨fun _ x hx => ?_, by simp⟩
        have hnil := List.filter_eq_nil_iff.mp hfil x hx
        simp only [decide_eq_true_eq] at hnil
        omega
      | cons row tail =>
        rw [hfil] at hys2
        subst hys2
        simp only [List.head?_cons] at hres
        subst hres
        refine ⟨by simp, fun row2 hrow2 => ?_⟩
        rw [Option.some_inj] at hrow2
        subst hrow2
        have hmemf : row ∈ (inorder t).filter (fun c => decide (r < c.1)) := by
          rw [hfil]
          simp
        obtain ⟨hmem, hgt⟩ := List.mem_filter.mp hmemf
        simp only [decide_eq_true_eq] at hgt
        refine ⟨hmem, Or.inr ⟨hgt, fun x hx hrx => ?_⟩⟩
        have hxf : x ∈ (inorder t).filter (fun c => decide (r < c.1)) :=
          List.mem_filter.mpr ⟨hx, decide_eq_true hrx⟩
        rw [hfil] at hxf
        rcases List.mem_cons.mp hxf with rfl | hxf
        · omega
        · have hsf := sorted_filter_map (inorder t) (fun c => decide (r < c.1)) hsor
          rw [hfil, List.map_cons, List.pairwise_cons] at hsf
          have := hsf.1 x.1 (List.mem_map.mpr ⟨x, hxf, rfl⟩)
          omega
    · rw [List.singleton_append] at hys2
      subst hys2
      simp only [List.head?_cons] at hres
      subst hres
      refine ⟨by simp, fun row2 hrow2 => ?_⟩
      rw [Option.some_inj] at hrow2
      subst hrow2
      exact ⟨hr0mem, Or.inl hr0le⟩

/-! ### Index iterator lemmas -/

lemma fromIndexI_zero (t : ITree) : fromIndexI t 0 = inorderI t := by
  cases t <;> simp [fromIndexI, inorderI]

lemma fromIndexI_interior_step (cells : List (ITree × List Nat)) (r : ITree) (i : Nat)
    (h : i < cells.length) :
    fromIndexI (.interior cells r) i
      = inorderI (cells.get ⟨i, h⟩).1 ++ fromIndexI (.interior cells r) (i + 1) := by
  simp only [fromIndexI]
  rw [List.drop_eq_getElem_cons h]
  simp [inorderICells, List.get_eq_getElem]

lemma fromIndexI_leaf_step (cells : List (List Nat)) (i : Nat)
    (h : i < cells.length) :
    fromIndexI (.leaf cells) i = cells.get ⟨i, h⟩ :: fromIndexI (.leaf cells) (i + 1) := by
  simp only [fromIndexI]
  rw [List.drop_eq_getElem_cons h]
  simp [List.get_eq_getElem]

lemma fromIndexI_leaf_exhausted (cells : List (List Nat)) (i : Nat)
    (h : ¬ i < cells.length) : fromIndexI (.leaf cells) i = [] := by
  simp only [fromIndexI]
  exact List.drop_eq_nil_of_le (by omega)

lemma fromIndexI_interior_exhausted (cells : List (ITree × List Nat)) (r : ITree) (i : Nat)
    (h : ¬ i < cells.length) : fromIndexI (.interior cells r) i = [] := by
  simp only [fromIndexI]
  rw [List.drop_eq_nil_of_le (by omega)]
  rfl

lemma stackDenI_cons (p : ITree) (i : Nat) (rest : List (ITree × Nat)) :
    stackDenI ((p, i) :: rest) = fromIndexI p i ++ stackDenI rest := by
  simp [stackDenI]

lemma stopFilter_nil (cmp : List Nat → Option Ordering) : stopFilter cmp [] = [] := rfl

lemma stopFilter_cons_lt (cmp : List Nat → Option Ordering) (c : List Nat)
    (l : List (List Nat)) (h : cmp c = some .lt) : stopFilter cmp (c :: l) = [] := by
  simp [stopFilter, List.takeWhile_cons, h]

lemma stopFilter_cons_eq (cmp : List Nat → Option Ordering) (c : List Nat)
    (l : List (List Nat)) (h : cmp c = some .eq) :
    stopFilter cmp (c :: l) = c :: stopFilter cmp l := by
  simp [stopFilter, List.takeWhile_cons, List.filter_cons, h]

lemma stopFilter_cons_other (cmp : List Nat → Option Ordering) (c : List Nat)
    (l : List (List Nat)) (h1 : cmp c ≠ some .lt) (h2 : cmp c ≠ some .eq) :
    stopFilter cmp (c :: l) = stopFilter cmp l := by
  simp [stopFilter, List.takeWhile_cons, List.filter_cons, h1, h2]

lemma inorderICells_append (A B : List (ITree × List Nat)) :
    inorderICells (A ++ B) = inorderICells A ++ inorderICells B := by
  induction A with
  | nil => simp [inorderICells]
  | cons c rest ih =>
    show inorderI c.1 ++ inorderICells (rest ++ B) = (inorderI c.1 ++ inorderICells rest) ++ _
    rw [ih, List.append_assoc]

lemma inorderICells_split (cells : List (ITree × List Nat)) (cpi : Nat)
    (c : ITree × List Nat) (hc : cells[cpi]? = some c) :
    inorderICells cells
      = inorderICells (cells.take cpi) ++ inorderI c.1
        ++ inorderICells (cells.drop (cpi + 1)) := by
  obtain ⟨hlt, heq⟩ := List.getElem?_eq_some.mp hc
  conv_lhs => rw [← List.take_append_drop cpi cells]
  rw [List.drop_eq_getElem_cons hlt, inorderICells_append]
  subst heq
  rw [show inorderICells (cells[cpi] :: cells.drop (cpi + 1))
      = inorderI cells[cpi].1 ++ inorderICells (cells.drop (cpi + 1)) from rfl,
    List.append_assoc]

lemma stopFilter_sublist (cmp : List Nat → Option Ordering) (l : List (List Nat)) :
    (stopFilter cmp l).Sublist l :=
  ((l.takeWhile _).filter_sublist).trans (l.takeWhile_sublist _)

/-- The index iterator's full yield sequence is the stop-at-Less,
keep-the-Equals filtering of the still-to-visit payloads. -/
theorem indexEntriesFrom_den (cmp : List Nat → Option Ordering) (s : IState) :
    indexEntriesFrom cmp s
      = stopFilter cmp (fromIndexI s.page s.index ++ stackDenI s.stack) := by
  induction s using indexEntriesFrom.induct cmp with
  | case1 index stack cells r h ih =>
    rw [indexEntriesFrom.eq_def]
    simp only [dif_pos h]
    rw [ih]
    simp only [fromIndexI_interior_step cells r index h, fromIndexI_zero, stackDenI_cons,
      List.append_assoc]
  | case2 index cells r h =>
    rw [indexEntriesFrom.eq_def]
    simp only [dif_neg h]
    rw [fromIndexI_interior_exhausted cells r index h]
    simp [stackDenI, stopFilter]
  | case3 index cells r h p i rest ih =>
    rw [indexEntriesFrom.eq_def]
    simp only [dif_neg h]
    rw [ih, fromIndexI_interior_exhausted cells r index h, stackDenI_cons]
    simp
  | case4 index stack cells h hcmp =>
    rw [indexEntriesFrom.eq_def]
    simp only [dif_pos h, hcmp]
    rw [fromIndexI_leaf_step cells index h, List.cons_append,
      stopFilter_cons_lt cmp _ _ hcmp]
  | case5 index stack cells h hcmp ih =>
    rw [indexEntriesFrom.eq_def]
    simp only [dif_pos h, hcmp]
    rw [ih, fromIndexI_leaf_step cells index h, List.cons_append,
      stopFilter_cons_eq cmp _ _ hcmp]
  | case6 index stack cells h hcmp1 hcmp2 ih =>
    rw [indexEntriesFrom.eq_def]
    simp only [dif_pos h]
    rw [ih, fromIndexI_leaf_step cells index h, List.cons_append,
      stopFilter_cons_other cmp _ _ hcmp1 hcmp2]
  | case7 index cells h =>
    rw [indexEntriesFrom.eq_def]
    simp only [dif_neg h]
    rw [fromIndexI_leaf_exhausted cells index h]
    simp [stackDenI, stopFilter]
  | case8 index cells h p i rest ih =>
    rw [indexEntriesFrom.eq_def]
    simp only [dif_neg h]
    rw [ih, fromIndexI_leaf_exhausted cells index h, stackDenI_cons]
    simp

/-- Where the index seek lands: everything still to visit is a suffix of the
scan order. -/
theorem indexSeekGo_suffix (cmp : List Nat → Option Ordering) :
    ∀ (t : ITree) (st : List (ITree × Nat)) (s : IState),
      indexSeekGo cmp t st = some s →
      ∃ pre, inorderI t ++ stackDenI st
        = pre ++ (fromIndexI s.page s.index ++ stackDenI s.stack) := by
  intro t0 st0
  induction t0, st0 using indexSeekGo.induct cmp with
  | case1 st cells =>
    intro s hs
    rw [indexSeekGo, Option.some_inj] at hs
    subst hs
    refine ⟨cells.take (prefLtCountL cmp cells - 1), ?_⟩
    show inorderI (ITree.leaf cells) ++ stackDenI st
      = _ ++ (cells.drop (prefLtCountL cmp cells - 1) ++ stackDenI st)
    rw [show inorderI (ITree.leaf cells) = cells from rfl, ← List.append_assoc,
      List.take_append_drop]
  | case2 st cells r cpi hc =>
    intro s hs
    have hc2 : cells[prefLtCountI cmp cells - 1]? = none := hc
    rw [indexSeekGo] at hs
    split at hs
    · exact absurd hs (by simp)
    · rename_i c2 heq
      rw [hc2] at heq
      exact absurd heq (by simp)
  | case3 st cells r cpi c hc ih =>
    intro s hs
    have hc2 : cells[prefLtCountI cmp cells - 1]? = some c := hc
    rw [indexSeekGo] at hs
    split at hs
    · rename_i heq
      rw [hc2] at heq
      exact absurd heq (by simp)
    · rename_i c2 heq
      rw [hc2] at heq
      obtain rfl : c = c2 := Option.some_inj.mp heq
      obtain ⟨pre1, hpre1⟩ := ih s hs
      rw [stackDenI_cons,
        show fromIndexI (ITree.interior cells r) (cpi + 1)
          = inorderICells (cells.drop (cpi + 1)) from rfl] at hpre1
      refine ⟨inorderICells (cells.take cpi) ++ pre1, ?_⟩
      rw [show inorderI (ITree.interior cells r) = inorderICells cells from rfl,
        inorderICells_split cells cpi c hc2]
      simp only [List.append_assoc] at hpre1 ⊢
      rw [hpre1]

lemma cutMax_sublist (m : Option Int) (l : List (Int × List Nat)) :
    (cutMax m l).Sublist l := by
  cases m with
  | none => exact List.Sublist.refl l
  | some b => exact List.takeWhile_sublist _

/-- Any table scan yields strictly increasing row ids. -/
theorem tableYields_sorted (t : TTree) (sb eb : Option Int) (hwf : TWF t none none)
    (ys : List (Int × List Nat)) (hys : tableRangeYields t sb eb = some ys) :
    List.Pairwise (· < ·) (ys.map Prod.fst) := by
  have hsor : List.Pairwise (· < ·) ((inorder t).map Prod.fst) :=
    twf_sorted t none none hwf
  cases sb with
  | none =>
    have heq : tableRangeYields t none eb = some (tableEntriesFrom ⟨t, 0, [], eb⟩) := rfl
    rw [heq, Option.some_inj] at hys
    subst hys
    rw [tableEntriesFrom_den]
    simp only [fromIndex_zero, stackDen, List.flatMap_nil, List.append_nil]
    exact List.Pairwise.sublist (List.Sublist.map Prod.fst (cutMax_sublist eb (inorder t)))
      hsor
  | some a =>
    obtain ⟨E, hE, hys2⟩ := tableRange_start_den t a eb hwf ys hys
    have hPED : List.Pairwise (· < ·)
        ((E ++ (inorder t).dropWhile fun c => decide (c.1 ≤ a)).map Prod.fst) := by
      rw [List.map_append, List.pairwise_append]
      refine ⟨?_, ?_, ?_⟩
      · rcases hE with rfl | ⟨r0, rfl, _, _⟩ <;> simp
      · exact List.Pairwise.sublist
          (List.Sublist.map Prod.fst (List.dropWhile_sublist _)) hsor
      · intro x hx y hy
        obtain ⟨cy, hcy, rfl⟩ := List.mem_map.mp hy
        have hya : a < cy.1 := sorted_dropWhile_gt (inorder t) a hsor cy hcy
        rcases hE with rfl | ⟨r0, rfl, _, hr0le⟩
        · simp at hx
        · simp only [List.map_cons, List.map_nil, List.mem_singleton] at hx
          subst hx
          omega
    rw [hys2]
    exact List.Pairwise.sublist (List.Sublist.map Prod.fst (cutMax_sublist eb _)) hPED

/-- Any index scan yields a subsequence of the scan order, so it inherits any
ordering of the scan order. -/
theorem indexYields_sublist (cmp : List Nat → Option Ordering) (t : ITree)
    (ys : List (List Nat)) (hys : indexYields cmp t = some ys) :
    ys.Sublist (inorderI t) := by
  unfold indexYields indexWithRange at hys
  cases hs : indexSeekGo cmp t [] with
  | none =>
    rw [hs] at hys
    exact absurd hys (by simp)
  | some s =>
    rw [hs, Option.map_some', Option.some_inj] at hys
    obtain ⟨pre, hpre⟩ := indexSeekGo_suffix cmp t [] s hs
    rw [show stackDenI [] = [] from rfl, List.append_nil] at hpre
    rw [← hys] at *
    rw [indexEntriesFrom_den, hpre]
    have h1 : (stopFilter cmp (fromIndexI s.page s.index ++ stackDenI s.stack)).Sublist
        (fromIndexI s.page s.index ++ stackDenI s.stack) := stopFilter_sublist _ _
    have h2 : (fromIndexI s.page s.index ++ stackDenI s.stack).Sublist
        (pre ++ (fromIndexI s.page s.index ++ stackDenI s.stack)) := by
      have h := List.Sublist.append (List.nil_sublist pre)
        (List.Sublist.refl (fromIndexI s.page s.index ++ stackDenI s.stack))
      rw [List.nil_append] at h
      exact h
    exact h1.trans h2

/-! ### The right-most pointer is never read: stripping it is invisible -/

mutual
theorem inorder_stripRight (t : TTree) : inorder (stripRight t) = inorder t := by
  cases t with
  | leaf cells => rfl
  | interior cells r =>
    show inorderCells (stripRightCells cells) = inorderCells cells
    exact inorderCells_stripRight cells
theorem inorderCells_stripRight (cells : List (TTree × Int)) :
    inorderCells (stripRightCells cells) = inorderCells cells := by
  cases cells with
  | nil => rfl
  | cons c rest =>
    show inorder (stripRight c.1) ++ inorderCells (stripRightCells rest) = _
    rw [inorder_stripRight c.1, inorderCells_stripRight rest]
    rfl
end

lemma stripRightCells_drop (cells : List (TTree × Int)) (i : Nat) :
    stripRightCells (cells.drop i) = (stripRightCells cells).drop i := by
  induction cells generalizing i with
  | nil => simp [stripRightCells]
  | cons c rest ih =>
    cases i with
    | zero => simp
    | succ j =>
      rw [List.drop_succ_cons, show stripRightCells (c :: rest)
        = (stripRight c.1, c.2) :: stripRightCells rest from rfl, List.drop_succ_cons]
      exact ih j

lemma stripRightCells_getElem? (cells : List (TTree × Int)) (i : Nat) :
    (stripRightCells cells)[i]? = cells[i]?.map fun c => (stripRight c.1, c.2) := by
  induction cells generalizing i with
  | nil => simp [stripRightCells]
  | cons c rest ih =>
    cases i with
    | zero =>
      rw [show stripRightCells (c :: rest)
        = (stripRight c.1, c.2) :: stripRightCells rest from rfl,
        List.getElem?_cons_zero, List.getElem?_cons_zero, Option.map_some']
    | succ j =>
      rw [show stripRightCells (c :: rest)
        = (stripRight c.1, c.2) :: stripRightCells rest from rfl,
        List.getElem?_cons_succ, List.getElem?_cons_succ]
      exact ih j

lemma childIndexScan_stripRight (cells : List (TTree × Int)) (a : Int) :
    childIndexScan (stripRightCells cells) a = childIndexScan cells a := by
  induction cells with
  | nil => rfl
  | cons c rest ih =>
    show (if a < c.2 then 0 else childIndexScan (stripRightCells rest) a + 1) = _
    rw [ih]
    rfl

lemma fromIndex_stripRight (t : TTree) (i : Nat) :
    fromIndex (stripRight t) i = fromIndex t i := by
  cases t with
  | leaf cells => rfl
  | interior cells r =>
    show inorderCells ((stripRightCells cells).drop i) = inorderCells (cells.drop i)
    rw [← stripRightCells_drop, inorderCells_stripRight]

lemma stackDen_stripRight (st : List (TTree × Nat)) :
    stackDen (st.map fun f => (stripRight f.1, f.2)) = stackDen st := by
  induction st with
  | nil => rfl
  | cons f rest ih =>
    rw [List.map_cons, stackDen_cons, stackDen_cons, ih, fromIndex_stripRight]

theorem seekGo_stripRight (a : Int) :
    ∀ (t : TTree) (st : List (TTree × Nat)),
      seekGo (stripRight t) a (st.map fun f => (stripRight f.1, f.2))
        = (seekGo t a st).map fun r =>
            (stripRight r.1, r.2.1, r.2.2.map fun f => (stripRight f.1, f.2)) := by
  intro t0 st0
  induction t0, a, st0 using seekGo.induct with
  | case1 a st cells =>
    rw [seekGo, show stripRight (TTree.leaf cells) = TTree.leaf cells from rfl, seekGo]
    rfl
  | case2 a st cells rightMost cpi hc =>
    have hc2 : cells[childIndexScan cells a]? = none := hc
    rw [seekGo, show stripRight (TTree.interior cells rightMost)
      = TTree.interior (stripRightCells cells) (TTree.leaf []) from rfl, seekGo]
    split
    · split
      · simp
      · rename_i c2 heq2
        rw [hc2] at heq2
        exact absurd heq2 (by simp)
    · rename_i c heq
      rw [childIndexScan_stripRight, stripRightCells_getElem?, hc2] at heq
      exact absurd heq (by simp)
  | case3 a st cells rightMost cpi c hc ih =>
    have hc2 : cells[childIndexScan cells a]? = some c := hc
    rw [seekGo, show stripRight (TTree.interior cells rightMost)
      = TTree.interior (stripRightCells cells) (TTree.leaf []) from rfl, seekGo]
    split
    · rename_i heq
      rw [childIndexScan_stripRight, stripRightCells_getElem?, hc2] at heq
      exact absurd heq (by simp)
    · rename_i c2 heq
      rw [childIndexScan_stripRight, stripRightCells_getElem?, hc2] at heq
      simp only [Option.map_some', Option.some_inj] at heq
      split
      · rename_i heq2
        rw [hc2] at heq2
        exact absurd heq2 (by simp)
      · rename_i c3 heq2
        rw [hc2] at heq2
        obtain rfl : c = c3 := Option.some_inj.mp heq2
        rw [← heq, childIndexScan_stripRight]
        exact ih

/-- Stripping the right-most subtrees is invisible to any table range scan. -/
theorem tableRangeYields_stripRight (t : TTree) (sb eb : Option Int) :
    tableRangeYields (stripRight t) sb eb = tableRangeYields t sb eb := by
  cases sb with
  | none =>
    show some (tableEntriesFrom ⟨stripRight t, 0, [], eb⟩)
      = some (tableEntriesFrom ⟨t, 0, [], eb⟩)
    rw [tableEntriesFrom_den, tableEntriesFrom_den]
    simp only [fromIndex_stripRight]
  | some a =>
    have hseek := seekGo_stripRight a t []
    rw [show ([] : List (TTree × Nat)).map (fun f => (stripRight f.1, f.2)) = [] from rfl]
      at hseek
    simp only [tableRangeYields, tableWithRange]
    rw [hseek]
    cases hs : seekGo t a [] with
    | none => rfl
    | some res =>
      obtain ⟨p, i, st⟩ := res
      simp only [Option.map_some', Option.some_inj]
      rw [tableEntriesFrom_den, tableEntriesFrom_den]
      simp only [fromIndex_stripRight, stackDen_stripRight]

mutual
theorem inorderI_stripRight (t : ITree) : inorderI (stripRightI t) = inorderI t := by
  cases t with
  | leaf cells => rfl
  | interior cells r =>
    show inorderICells (stripRightICells cells) = inorderICells cells
    exact inorderICells_stripRight cells
theorem inorderICells_stripRight (cells : List (ITree × List Nat)) :
    inorderICells (stripRightICells cells) = inorderICells cells := by
  cases cells with
  | nil => rfl
  | cons c rest =>
    show inorderI (stripRightI c.1) ++ inorderICells (stripRightICells rest) = _
    rw [inorderI_stripRight c.1, inorderICells_stripRight rest]
    rfl
end

lemma stripRightICells_drop (cells : List (ITree × List Nat)) (i : Nat) :
    stripRightICells (cells.drop i) = (stripRightICells cells).drop i := by
  induction cells generalizing i with
  | nil => simp [stripRightICells]
  | cons c rest ih =>
    cases i with
    | zero => simp
    | succ j =>
      rw [List.drop_succ_cons, show stripRightICells (c :: rest)
        = (stripRightI c.1, c.2) :: stripRightICells rest from rfl, List.drop_succ_cons]
      exact ih j

lemma stripRightICells_getElem? (cells : List (ITree × List Nat)) (i : Nat) :
    (stripRightICells cells)[i]? = cells[i]?.map fun c => (stripRightI c.1, c.2) := by
  induction cells generalizing i with
  | nil => simp [stripRightICells]
  | cons c rest ih =>
    cases i with
    | zero =>
      rw [show stripRightICells (c :: rest)
        = (stripRightI c.1, c.2) :: stripRightICells rest from rfl,
        List.getElem?_cons_zero, List.getElem?_cons_zero, Option.map_some']
    | succ j =>
      rw [show stripRightICells (c :: rest)
        = (stripRightI c.1, c.2) :: stripRightICells rest from rfl,
        List.getElem?_cons_succ, List.getElem?_cons_succ]
      exact ih j

lemma prefLtCountI_stripRight (cmp : List Nat → Option Ordering)
    (cells : List (ITree × List Nat)) :
    prefLtCountI cmp (stripRightICells cells) = prefLtCountI cmp cells := by
  induction cells with
  | nil => rfl
  | cons c rest ih =>
    show (if cmp c.2 = some .lt then prefLtCountI cmp (stripRightICells rest) + 1 else 0) = _
    rw [ih]
    rfl

lemma fromIndexI_stripRight (t : ITree) (i : Nat) :
    fromIndexI (stripRightI t) i = fromIndexI t i := by
  cases t with
  | leaf cells => rfl
  | interior cells r =>
    show inorderICells ((stripRightICells cells).drop i) = inorderICells (cells.drop i)
    rw [← stripRightICells_drop, inorderICells_stripRight]

lemma stackDenI_stripRight (st : List (ITree × Nat)) :
    stackDenI (st.map fun f => (stripRightI f.1, f.2)) = stackDenI st := by
  induction st with
  | nil => rfl
  | cons f rest ih =>
    rw [List.map_cons, stackDenI_cons, stackDenI_cons, ih, fromIndexI_stripRight]

theorem indexSeekGo_stripRight (cmp : List Nat → Option Ordering) :
    ∀ (t : ITree) (st : List (ITree × Nat)),
      indexSeekGo cmp (stripRightI t) (st.map fun f => (stripRightI f.1, f.2))
        = (indexSeekGo cmp t st).map fun r =>
            ⟨stripRightI r.page, r.index, r.stack.map fun f => (stripRightI f.1, f.2)⟩ := by
  intro t0 st0
  induction t0, st0 using indexSeekGo.induct cmp with
  | case1 st cells =>
    rw [indexSeekGo, show stripRightI (ITree.leaf cells) = ITree.leaf cells from rfl,
      indexSeekGo]
    rfl
  | case2 st cells r cpi hc =>
    have hc2 : cells[prefLtCountI cmp cells - 1]? = none := hc
    rw [indexSeekGo, show stripRightI (ITree.interior cells r)
      = ITree.interior (stripRightICells cells) (ITree.leaf []) from rfl, indexSeekGo]
    split
    · split
      · simp
      · rename_i c2 heq2
        rw [hc2] at heq2
        exact absurd heq2 (by simp)
    · rename_i c heq
      rw [prefLtCountI_stripRight, stripRightICells_getElem?, hc2] at heq
      exact absurd heq (by simp)
  | case3 st cells r cpi c hc ih =>
    have hc2 : cells[prefLtCountI cmp cells - 1]? = some c := hc
    rw [indexSeekGo, show stripRightI (ITree.interior cells r)
      = ITree.interior (stripRightICells cells) (ITree.leaf []) from rfl, indexSeekGo]
    split
    · rename_i heq
      rw [prefLtCountI_stripRight, stripRightICells_getElem?, hc2] at heq
      exact absurd heq (by simp)
    · rename_i c2 heq
      rw [prefLtCountI_stripRight, stripRightICells_getElem?, hc2] at heq
      simp only [Option.map_some', Option.some_inj] at heq
      split
      · rename_i heq2
        rw [hc2] at heq2
        exact absurd heq2 (by simp)
      · rename_i c3 heq2
        rw [hc2] at heq2
        obtain rfl : c = c3 := Option.some_inj.mp heq2
        rw [← heq, prefLtCountI_stripRight]
        exact ih

/-- Stripping the right-most subtrees is invisible to any index range scan. -/
theorem indexYields_stripRight (cmp : List Nat → Option Ordering) (t : ITree) :
    indexYields cmp (stripRightI t) = indexYields cmp t := by
  unfold indexYields indexWithRange
  have hseek := indexSeekGo_stripRight cmp t []
  rw [show ([] : List (ITree × Nat)).map (fun f => (stripRightI f.1, f.2)) = [] from rfl]
    at hseek
  rw [hseek]
  cases hs : indexSeekGo cmp t [] with
  | none => rfl
  | some res =>
    simp only [Option.map_some']
    rw [Option.some_inj, indexEntriesFrom_den, indexEntriesFrom_den]
    simp only [fromIndexI_stripRight, stackDenI_stripRight]

/-- BTreePageHeader::read_from_prefix succeeds exactly on ten or more bytes,
and parses the right-most pointer as the 2-byte big-endian field at offset
8. -/
theorem readPageHeader_rightMost (bytes : List Nat) (h : BTreePageHeader)
    (hr : readPageHeader bytes = some h) :
    10 ≤ bytes.length ∧ h.rightMostPointer = beNat ((bytes.drop 8).take 2) := by
  unfold readPageHeader at hr
  split at hr
  · rename_i hlen
    rw [Option.some_inj] at hr
    subst hr
    refine ⟨hlen, ?_⟩
    have h8 : bytes.drop 8 = bytes.get ⟨8, by omega⟩ :: bytes.drop 9 := by
      rw [List.drop_eq_getElem_cons (by omega)]
      rfl
    have h9 : bytes.drop 9 = bytes.get ⟨9, by omega⟩ :: bytes.drop 10 := by
      rw [List.drop_eq_getElem_cons (by omega)]
      rfl
    rw [h8, h9]
    simp only [List.take_succ_cons, List.take_zero, beNat, List.foldl_cons, List.foldl_nil]
    omega
  · exact absurd hr (by simp)

/-! ### Transaction and open lemmas -/

/-- Commit never changes the file change counter. -/
lemma txCommit_counter (db : MDB) (tx : Txn) :
    (txCommit db tx).map (fun d => d.header.fileChangeCounter)
      = (txCommit db tx).map fun _ => db.header.fileChangeCounter := by
  simp only [txCommit]
  split <;> rfl

lemma runOp_db (db : MDB) (tx : Txn) (op : TxOp) (db2 : MDB) (tx2 : Txn)
    (h : runOp db tx op = .ok (db2, tx2)) : db2 = db := by
  cases op with
  | opPage n =>
    simp only [runOp] at h
    cases hx : txPage db tx n with
    | error e =>
      rw [hx] at h
      exact absurd h (by simp [Except.map])
    | ok p =>
      rw [hx] at h
      simp only [Except.map, Except.ok.injEq, Prod.mk.injEq] at h
      exact h.1.symm
  | opPageMut n =>
    simp only [runOp] at h
    cases hx : txPageMut db tx n with
    | error e =>
      rw [hx] at h
      exact absurd h (by simp [Except.map])
    | ok r =>
      rw [hx] at h
      simp only [Except.map, Except.ok.injEq, Prod.mk.injEq] at h
      exact h.1.symm
  | opNewPage =>
    simp only [runOp] at h
    cases hx : txNewPage db tx with
    | error e =>
      rw [hx] at h
      exact absurd h (by simp [Except.map])
    | ok r =>
      rw [hx] at h
      simp only [Except.map, Except.ok.injEq, Prod.mk.injEq] at h
      exact h.1.symm

/-- No pre-commit operation sequence changes the committed database state. -/
theorem runOps_db (ops : List TxOp) :
    ∀ (db : MDB) (tx : Txn) (db2 : MDB) (tx2 : Txn),
      runOps db tx ops = .ok (db2, tx2) → db2 = db := by
  induction ops with
  | nil =>
    intro db tx db2 tx2 h
    simp only [runOps, Except.ok.injEq, Prod.mk.injEq] at h
    exact h.1.symm
  | cons op rest ih =>
    intro db tx db2 tx2 h
    simp only [runOps] at h
    cases hx : runOp db tx op with
    | error e =>
      rw [hx] at h
      exact absurd h (by simp)
    | ok r =>
      rw [hx] at h
      obtain ⟨dbm, txm⟩ := r
      have h1 := runOp_db db tx op dbm txm hx
      exact (ih dbm txm db2 tx2 h).trans h1

/-- What commit publishes: dirty pages win, page 1 gets the updated header
spliced over its first 100 bytes, and the header advances to the snapshot
counters while the change counter stays. -/
theorem txCommit_publish (db : MDB) (tx : Txn) (db2 : MDB)
    (h : txCommit db tx = some db2) :
    db2.header.databaseSize = tx.databaseSize ∧
    db2.header.freelistHead = tx.freelistHead ∧
    db2.header.freelistCount = tx.freelistCount ∧
    db2.header.fileChangeCounter = db.header.fileChangeCounter ∧
    (∀ n, n ≠ 1 →
      db2.pages n = match lookupDirty tx.dirtyPages n with
        | some p => some p
        | none => db.pages n) ∧
    ∀ p1, (match lookupDirty tx.dirtyPages 1 with
        | some p => some p
        | none => db.pages 1) = some p1 →
      db2.pages 1 = some (headerBytes db2.header ++ p1.drop 100) := by
  simp only [txCommit] at h
  split at h
  · exact absurd h (by simp)
  · rename_i p1 hp1
    rw [Option.some_inj] at h
    subst h
    refine ⟨rfl, rfl, rfl, rfl, fun n hn => ?_, fun q1 hq1 => ?_⟩
    · simp only [if_neg hn]
    · rw [hp1, Option.some_inj] at hq1
      subst hq1
      simp

/-- Open never returns a FormatError, and a full-size header failing the
validate asserts makes open panic instead. -/
theorem openBytes_no_formatError (f : Option (List Nat)) :
    openBytes f ≠ OpenResult.formatError := by
  cases f with
  | none => simp [openBytes]
  | some bytes =>
    simp only [openBytes]
    split
    · simp
    · split <;> simp

lemma openBytes_panics (bytes : List Nat) (hlen : 100 ≤ bytes.length)
    (hbad : (Header.read100 (bytes.take 100)).validateOk = false) :
    openBytes (some bytes) = OpenResult.panicked := by
  simp only [openBytes]
  rw [if_neg (by omega), if_neg (by simp [hbad])]

/-! ### The integer serializer: width choice and well-formedness -/

lemma bitLen_le_iff (u k : Nat) : bitLen u ≤ k ↔ u < 2 ^ k :=
  ⟨fun h => lt_of_lt_of_le (Varint.lt_two_pow_bitLen u) (Nat.pow_le_pow_right (by norm_num) h),
    Varint.bitLen_le u k⟩

lemma absPat_lt_iff (v : Int) (M : Nat) :
    absPat v < M ↔ (-(M : Int) < v ∧ v < (M : Int)) := by
  unfold absPat
  split <;> omega

lemma castW_range (w : Nat) (hw : 1 ≤ w) (v : Int) :
    -(2 ^ (8 * w - 1)) ≤ castW w v ∧ castW w v < 2 ^ (8 * w - 1) :=
  fromPat_range w (toPat w v) hw (toPat_lt w v)

/-- Every value serialize_i64 produces satisfies its wrapper's range. -/
lemma serializeI64_wf (v : Int) : (serializeI64 v).wf := by
  simp only [serializeI64]
  split
  · trivial
  · split
    · trivial
    · have h1 := castW_range 1 (by omega) v
      have h2 := castW_range 2 (by omega) v
      have h3 := castW_range 3 (by omega) v
      have h4 := castW_range 4 (by omega) v
      have h6 := castW_range 6 (by omega) v
      have h8 := castW_range 8 (by omega) v
      norm_num at h1 h2 h3 h4 h6 h8
      split
      · exact h1
      · split
        · exact h2
        · split
          · exact h3
          · split
            · exact h4
            · split
              · exact h6
              · exact h8

/-- What the serializer pushes is always re-encodable bit-for-bit. -/
lemma toSerial_wf (tv : TypedValue) (h : tv.wf) : tv.toSerial.wf := by
  cases tv with
  | int v => exact serializeI64_wf v
  | float bits => exact h
  | blob b => exact h
  | text t => exact h
  | null => trivial

/-- Away from the five negative boundary values, the code's width choice by
magnitude bit-length agrees with the narrowest two's-complement form the
claim describes; at those boundaries the code picks the next wider form. -/
theorem serializeI64_eq_narrowest (v : Int)
    (hlo : -(2 ^ 63) ≤ v) (hhi : v < 2 ^ 63)
    (hb7 : v ≠ -(2 ^ 7)) (hb15 : v ≠ -(2 ^ 15)) (hb23 : v ≠ -(2 ^ 23))
    (hb31 : v ≠ -(2 ^ 31)) (hb47 : v ≠ -(2 ^ 47)) :
    serializeI64 v = narrowestSerial v := by
  unfold serializeI64 narrowestSerial
  by_cases h0 : v = 0
  · rw [if_pos h0, if_pos h0]
  rw [if_neg h0, if_neg h0]
  by_cases h1 : v = 1
  · rw [if_pos h1, if_pos h1]
  rw [if_neg h1, if_neg h1]
  have habs64 : absPat v < 2 ^ 64 := by
    rw [absPat_lt_iff]
    push_cast
    constructor <;> omega
  have hlz : 64 - leadingZeros64 (absPat v) = bitLen (absPat v) := by
    unfold leadingZeros64
    have := Varint.bitLen_le (absPat v) 64 habs64
    omega
  have hiff : ∀ k : Nat, (64 - leadingZeros64 (absPat v) + 1 ≤ k + 1
      ↔ (-((2 : Int) ^ k) < v ∧ v < (2 : Int) ^ k)) := by
    intro k
    rw [hlz]
    have h2 : (64 - leadingZeros64 (absPat v) + 1 ≤ k + 1) = (bitLen (absPat v) + 1 ≤ k + 1) :=
      by rw [hlz]
    have hchain : bitLen (absPat v) ≤ k ↔ absPat v < 2 ^ k := bitLen_le_iff (absPat v) k
    have hcast : (((2 : Nat) ^ k : Nat) : Int) = (2 : Int) ^ k := by push_cast; rfl
    rw [show bitLen (absPat v) + 1 ≤ k + 1 ↔ bitLen (absPat v) ≤ k from by omega, hchain,
      absPat_lt_iff v (2 ^ k), hcast]
  by_cases hc7 : -((2 : Int) ^ 7) < v ∧ v < (2 : Int) ^ 7
  · have hp : -((2 : Int) ^ 7) ≤ v ∧ v < (2 : Int) ^ 7 := ⟨le_of_lt hc7.1, hc7.2⟩
    rw [if_pos ((hiff 7).mpr hc7), if_pos hp]
    rw [show castW 1 v = v from fromPat_toPat 1 (by omega) v (by norm_num; omega) (by norm_num; omega)]
  have hn7 : ¬(-((2 : Int) ^ 7) ≤ v ∧ v < (2 : Int) ^ 7) := by
    intro hc
    exact hc7 ⟨by omega, hc.2⟩
  rw [if_neg (fun hc => hc7 ((hiff 7).mp hc)), if_neg hn7]
  by_cases hc15 : -((2 : Int) ^ 15) < v ∧ v < (2 : Int) ^ 15
  · have hp : -((2 : Int) ^ 15) ≤ v ∧ v < (2 : Int) ^ 15 := ⟨le_of_lt hc15.1, hc15.2⟩
    rw [if_pos ((hiff 15).mpr hc15), if_pos hp]
    rw [show castW 2 v = v from fromPat_toPat 2 (by omega) v (by norm_num; omega) (by norm_num; omega)]
  have hn15 : ¬(-((2 : Int) ^ 15) ≤ v ∧ v < (2 : Int) ^ 15) := by
    intro hc
    exact hc15 ⟨by omega, hc.2⟩
  rw [if_neg (fun hc => hc15 ((hiff 15).mp hc)), if_neg hn15]
  by_cases hc23 : -((2 : Int) ^ 23) < v ∧ v < (2 : Int) ^ 23
  · have hp : -((2 : Int) ^ 23) ≤ v ∧ v < (2 : Int) ^ 23 := ⟨le_of_lt hc23.1, hc23.2⟩
    rw [if_pos ((hiff 23).mpr hc23), if_pos hp]
    rw [show castW 3 v = v from fromPat_toPat 3 (by omega) v (by norm_num; omega) (by norm_num; omega)]
  have hn23 : ¬(-((2 : Int) ^ 23) ≤ v ∧ v < (2 : Int) ^ 23) := by
    intro hc
    exact hc23 ⟨by omega, hc.2⟩
  rw [if_neg (fun hc => hc23 ((hiff 23).mp hc)), if_neg hn23]
  by_cases hc31 : -((2 : Int) ^ 31) < v ∧ v < (2 : Int) ^ 31
  · have hp : -((2 : Int) ^ 31) ≤ v ∧ v < (2 : Int) ^ 31 := ⟨le_of_lt hc31.1, hc31.2⟩
    rw [if_pos ((hiff 31).mpr hc31), if_pos hp]
    rw [show castW 4 v = v from fromPat_toPat 4 (by omega) v (by norm_num; omega) (by norm_num; omega)]
  have hn31 : ¬(-((2 : Int) ^ 31) ≤ v ∧ v < (2 : Int) ^ 31) := by
    intro hc
    exact hc31 ⟨by omega, hc.2⟩
  rw [if_neg (fun hc => hc31 ((hiff 31).mp hc)), if_neg hn31]
  by_cases hc47 : -((2 : Int) ^ 47) < v ∧ v < (2 : Int) ^ 47
  · have hp : -((2 : Int) ^ 47) ≤ v ∧ v < (2 : Int) ^ 47 := ⟨le_of_lt hc47.1, hc47.2⟩
    rw [if_pos ((hiff 47).mpr hc47), if_pos hp]
    rw [show castW 6 v = v from fromPat_toPat 6 (by omega) v (by norm_num; omega) (by norm_num; omega)]
  have hn47 : ¬(-((2 : Int) ^ 47) ≤ v ∧ v < (2 : Int) ^ 47) := by
    intro hc
    exact hc47 ⟨by omega, hc.2⟩
  rw [if_neg (fun hc => hc47 ((hiff 47).mp hc)), if_neg hn47]
  rw [show castW 8 v = v from fromPat_toPat 8 (by omega) v (by norm_num; omega) (by norm_num; omega)]

/-! ### Record encode/decode at the typed level, and cell parse-back -/

/-- Decoding an encoded row yields exactly what the serializer pushed. -/
theorem decode_encodeTyped (vs : List TypedValue) (hwf : ∀ tv ∈ vs, tv.wf)
    (hlen : vs.length ≤ 2 ^ 50) :
    decodeRecord (encodeTyped vs) = some (vs.map TypedValue.toSerial) := by
  unfold encodeTyped
  refine decode_recordBytes (vs.map TypedValue.toSerial) ?_ (by simpa using hlen)
  intro v hv
  obtain ⟨tv, htv, rfl⟩ := List.mem_map.mp hv
  exact toSerial_wf tv (hwf tv htv)

/-- Away from the five boundary integers, the pushed values are the claim's
normalisation. -/
lemma toSerial_eq_normalise (vs : List TypedValue) (hwf : ∀ tv ∈ vs, tv.wf)
    (hnb : ∀ v : Int, TypedValue.int v ∈ vs →
      v ≠ -(2 ^ 7) ∧ v ≠ -(2 ^ 15) ∧ v ≠ -(2 ^ 23) ∧ v ≠ -(2 ^ 31) ∧ v ≠ -(2 ^ 47)) :
    vs.map TypedValue.toSerial = normaliseSpec vs := by
  unfold normaliseSpec
  induction vs with
  | nil => rfl
  | cons tv rest ih =>
    rw [List.map_cons, List.map_cons]
    have hrest : rest.map TypedValue.toSerial
        = rest.map fun tv =>
          match tv with
          | .int v => narrowestSerial v
          | .float bits => .f64 bits
          | .blob b => .blob b
          | .text t => .text t
          | .null => .null := by
      refine ih (fun u hu => hwf u (by simp [hu])) (fun v hv => hnb v (by simp [hv]))
    rw [hrest]
    refine congrArg (· :: _) ?_
    cases tv with
    | int v =>
      obtain ⟨hlo, hhi⟩ := hwf (.int v) (by simp)
      obtain ⟨h7, h15, h23, h31, h47⟩ := hnb v (by simp)
      exact serializeI64_eq_narrowest v hlo hhi h7 h15 h23 h31 h47
    | float bits => rfl
    | blob b => rfl
    | text t => rfl
    | null => rfl

/-- Parsing back the leaf cell insert_table_record builds for row id 1. -/
lemma leafTableCellParse_one (record : List Nat) (hlen : record.length < 2 ^ 62) :
    leafTableCellParse
        (Varint.write ((record.length : Nat) : Int) ++ Varint.write 1 ++ record)
      = some (1, record) := by
  have hL63 : ((record.length : Nat) : Int) < 2 ^ 63 := by
    have : ((record.length : Nat) : Int) < ((2 ^ 62 : Nat) : Int) := by exact_mod_cast hlen
    have h2 : (((2 : Nat) ^ 62 : Nat) : Int) < 2 ^ 63 := by norm_num
    omega
  have hread1 := Varint.read_write_append ((record.length : Nat) : Int)
    (Varint.write 1 ++ record) (by omega) hL63 (Or.inl (by omega))
  unfold leafTableCellParse
  rw [List.append_assoc, hread1]
  simp only []
  have hdrop1 : (Varint.write ((record.length : Nat) : Int)
        ++ (Varint.write 1 ++ record)).drop
        (Varint.write ((record.length : Nat) : Int)).length
      = Varint.write 1 ++ record := List.drop_left _ _
  rw [hdrop1]
  have hread2 := Varint.read_write_append 1 record (by norm_num) (by norm_num)
    (Or.inl (by norm_num))
  rw [hread2]
  simp only []
  have hdropAll : (Varint.write ((record.length : Nat) : Int)
        ++ (Varint.write 1 ++ record)).drop
        ((Varint.write ((record.length : Nat) : Int)).length + (Varint.write 1).length)
      = record := by
    rw [← List.drop_drop, hdrop1, List.drop_left]
  rw [hdropAll]
  have hu : toU64 ((record.length : Nat) : Int) = record.length := by
    refine toU64_natCast record.length ?_
    have : (2 : Nat) ^ 62 < 2 ^ 64 := by norm_num
    omega
  rw [hu, if_pos (le_refl _), List.take_length]

/-! ## The claims -/

/-- C3: the varint round-trip law holds for the nonnegative half and for the
nine-byte negatives (magnitude 2^54 or more), with 1 to 9 bytes written; it
does not hold over the whole i64 range (see the counterexample at -1). -/
theorem c3_varint_roundtrip (v : Int) (hlo : -(2 ^ 63) ≤ v) (hhi : v < 2 ^ 63)
    (hform : 0 ≤ v ∨ v ≤ -(2 ^ 54)) :
    Varint.read (Varint.write v) = some (v, (Varint.write v).length) ∧
    1 ≤ (Varint.write v).length ∧ (Varint.write v).length ≤ 9 := by
  refine ⟨?_, Varint.write_length_bounds v⟩
  have h := Varint.read_write_append v [] hlo hhi hform
  rwa [List.append_nil] at h

/-- C3 witness: the round-trip at v = 3. -/
theorem c3_varint_roundtrip_witness :
    Varint.read (Varint.write 3) = some (3, (Varint.write 3).length) ∧
    1 ≤ (Varint.write 3).length ∧ (Varint.write 3).length ≤ 9 :=
  c3_varint_roundtrip 3 (by norm_num) (by norm_num) (Or.inl (by norm_num))

/-- C3 counterexample: write(-1) emits the single byte 127, which reads back
as 127, not -1 — the short negative forms do not round-trip. -/
theorem c3_counterexample :
    Varint.read (Varint.write (-1)) = some (127, 1) ∧ ((127 : Int) ≠ -1) := by
  have hw : Varint.write (-1) = [127] := by
    have habs : absPat (-1) = 1 := by decide
    have hbl : bitLen 1 = 1 := by simp [bitLen, Nat.log2]
    simp only [Varint.write, habs, leadingZeros64, hbl]
    norm_num
    rw [Varint.shortList_one]
    have : toU64 (-1) = 2 ^ 64 - 1 := by decide
    rw [this]
    norm_num
  rw [hw]
  exact ⟨by decide, by decide⟩

/-- C5: the file change counter does not change across commit — for every
transaction that commits, the new header carries the old counter, so it is
never strictly greater as the specification requires. -/
theorem c5_commit_counter_unchanged (db : MDB) (tx : Txn) :
    (txCommit db tx).map (fun d => d.header.fileChangeCounter)
      = (txCommit db tx).map fun _ => db.header.fileChangeCounter :=
  txCommit_counter db tx

/-- C6: transactions are all-or-nothing: no pre-commit operation sequence
changes the database, and commit publishes every dirty page (page 1 with the
header spliced over its first 100 bytes) while advancing database_size,
freelist_head and freelist_count to the snapshot. -/
theorem c6_transaction_atomic :
    (∀ (ops : List TxOp) (db : MDB) (tx : Txn) (db2 : MDB) (tx2 : Txn),
      runOps db tx ops = .ok (db2, tx2) → db2 = db) ∧
    ∀ (db : MDB) (tx : Txn) (db2 : MDB), txCommit db tx = some db2 →
      db2.header.databaseSize = tx.databaseSize ∧
      db2.header.freelistHead = tx.freelistHead ∧
      db2.header.freelistCount = tx.freelistCount ∧
      db2.header.fileChangeCounter = db.header.fileChangeCounter ∧
      (∀ n, n ≠ 1 →
        db2.pages n = match lookupDirty tx.dirtyPages n with
          | some p => some p
          | none => db.pages n) ∧
      ∀ p1, (match lookupDirty tx.dirtyPages 1 with
          | some p => some p
          | none => db.pages 1) = some p1 →
        db2.pages 1 = some (headerBytes db2.header ++ p1.drop 100) :=
  ⟨fun ops db tx db2 tx2 h => runOps_db ops db tx db2 tx2 h,
    fun db tx db2 h => txCommit_publish db tx db2 h⟩

set_option maxRecDepth 8000 in
/-- C6 witness: on the concrete example database, a pre-commit read leaves
the database untouched and the committed database carries the snapshot
size. -/
theorem c6_transaction_atomic_witness :
    exampleMDB = exampleMDB ∧
    exampleCommitted.header.databaseSize = exampleTxn.databaseSize :=
  ⟨c6_transaction_atomic.1 [TxOp.opPage 1] exampleMDB exampleTxn exampleMDB exampleTxn
      (by rfl),
    (c6_transaction_atomic.2 exampleMDB exampleTxn exampleCommitted (by rfl)).1⟩

/-- C7: open never returns a FormatError: a full-size header that violates
the on-disk contract makes Header::validate abort on an assert!, so open
panics instead of returning the error the specification describes. -/
theorem c7_open_panics (bytes : List Nat) (hlen : 100 ≤ bytes.length)
    (hbad : (Header.read100 (bytes.take 100)).validateOk = false) :
    openBytes (some bytes) = OpenResult.panicked ∧
    ∀ f : Option (List Nat), openBytes f ≠ OpenResult.formatError :=
  ⟨openBytes_panics bytes hlen hbad, openBytes_no_formatError⟩

set_option maxRecDepth 100000 in
/-- C7 witness: a 200-byte file of sevens (bad magic) panics open. -/
theorem c7_open_panics_witness :
    openBytes (some (List.replicate 200 7)) = OpenResult.panicked ∧
    ∀ f : Option (List Nat), openBytes f ≠ OpenResult.formatError :=
  c7_open_panics (List.replicate 200 7) (by decide) (by decide)

set_option maxRecDepth 100000 in
/-- C7 counterexample: one hundred zero bytes violate the header contract,
and open ends in the aborted assert!, not in a returned FormatError. -/
theorem c7_counterexample :
    openBytes (some (List.replicate 100 0)) = OpenResult.panicked ∧
    openBytes (some (List.replicate 100 0)) ≠ OpenResult.formatError := by
  constructor <;> decide

lemma TWF_example :
    TWF (TTree.leaf [((1 : Int), [(10 : Nat)]), (5, [50])]) none none := by
  refine ⟨by decide, ?_⟩
  intro c hc
  exact ⟨by simp, by simp⟩

lemma seekGo_example :
    seekGo (TTree.leaf [((1 : Int), [(10 : Nat)]), (5, [50])]) 3 []
      = some (TTree.leaf [((1 : Int), [(10 : Nat)]), (5, [50])], 0, []) := by
  rw [seekGo]
  norm_num [leafIndexScan, prefCountL]

lemma tableRangeYields_example :
    tableRangeYields (TTree.leaf [((1 : Int), [(10 : Nat)]), (5, [50])]) (some 3) (some 10)
      = some [(1, [10]), (5, [50])] := by
  simp only [tableRangeYields, tableWithRange, seekGo_example]
  rw [Option.map_some', Option.some_inj, tableEntriesFrom_den]
  rfl

lemma tableRangeYields_example_none :
    tableRangeYields (TTree.leaf [((1 : Int), [(10 : Nat)]), (5, [50])]) (some 3) none
      = some [(1, [10]), (5, [50])] := by
  simp only [tableRangeYields, tableWithRange, seekGo_example]
  rw [Option.map_some', Option.some_inj, tableEntriesFrom_den]
  rfl

lemma tableGet_example :
    tableGet (TTree.leaf [((1 : Int), [(10 : Nat)]), (5, [50])]) 3
      = some (some (1, [10])) := by
  unfold tableGet
  rw [tableRangeYields_example_none]
  rfl

/-- C1 (corrected): a bounded range scan, after the bound mapping, yields
exactly the rows with row-id strictly between the mapped start and end —
except that the single landing row, whose row-id is at most the start, may
be yielded first.  Rows with row-id equal to the mapped start are thus not
reliably included, contrary to the claim. -/
theorem c1_range_rows (t : TTree) (sb eb : BoundE) (a b : Int)
    (hwf : TWF t none none)
    (hsa : mapStartBound sb = some a) (heb : mapEndBound eb = some b)
    (ys : List (Int × List Nat))
    (hys : tableRangeYields t (mapStartBound sb) (mapEndBound eb) = some ys) :
    ys = (inorder t).filter (fun c => decide (a < c.1) && decide (c.1 < b)) ∨
    ∃ r0, r0 ∈ inorder t ∧ r0.1 ≤ a ∧ r0.1 < b ∧
      ys = r0 :: (inorder t).filter (fun c => decide (a < c.1) && decide (c.1 < b)) := by
  rw [hsa, heb] at hys
  exact rangeYields_filter t a b hwf ys hys

/-- C1 witness: the range [3, 10) on the two-row leaf lands on row 1, which
is yielded ahead of the in-range row 5. -/
theorem c1_range_rows_witness :
    [((1 : Int), [(10 : Nat)]), (5, [50])]
        = (inorder (TTree.leaf [((1 : Int), [(10 : Nat)]), (5, [50])])).filter
            (fun c => decide ((3 : Int) < c.1) && decide (c.1 < 10)) ∨
    ∃ r0, r0 ∈ inorder (TTree.leaf [((1 : Int), [(10 : Nat)]), (5, [50])]) ∧
      r0.1 ≤ 3 ∧ r0.1 < 10 ∧
      [((1 : Int), [(10 : Nat)]), (5, [50])]
        = r0 :: (inorder (TTree.leaf [((1 : Int), [(10 : Nat)]), (5, [50])])).filter
            (fun c => decide ((3 : Int) < c.1) && decide (c.1 < 10)) :=
  c1_range_rows (TTree.leaf [((1 : Int), [(10 : Nat)]), (5, [50])])
    (BoundE.incl 3) (BoundE.excl 10) 3 10 TWF_example rfl rfl
    [(1, [10]), (5, [50])] tableRangeYields_example

/-- C1 counterexample: the sorted table {1, 5} scanned over [3, 10) yields
row-id 1, which is outside the range. -/
theorem c1_counterexample :
    TWF (TTree.leaf [((1 : Int), [(10 : Nat)]), (5, [50])]) none none ∧
    tableRangeYields (TTree.leaf [((1 : Int), [(10 : Nat)]), (5, [50])])
        (mapStartBound (BoundE.incl 3)) (mapEndBound (BoundE.excl 10))
      = some [(1, [10]), (5, [50])] ∧
    ¬ ((3 : Int) ≤ 1) :=
  ⟨TWF_example, tableRangeYields_example, by norm_num⟩

/-- C2 (corrected): get(r) does not return the row with row-id r; it returns
the row the seek lands on — the last leading leaf cell with row-id at most r
if the landing leaf has one, otherwise the least row above r — and none only
when every row-id is at most r. -/
theorem c2_get_lands (t : TTree) (r : Int) (hwf : TWF t none none)
    (res : Option (Int × List Nat)) (hres : tableGet t r = some res) :
    (res = none → ∀ x ∈ inorder t, x.1 ≤ r) ∧
    ∀ row, res = some row → row ∈ inorder t ∧
      (row.1 ≤ r ∨ (r < row.1 ∧ ∀ x ∈ inorder t, r < x.1 → row.1 ≤ x.1)) :=
  tableGet_den t r hwf res hres

/-- C2 witness: get(3) on the table {1, 5} returns the landing row 1. -/
theorem c2_get_lands_witness :
    ((some ((1 : Int), [(10 : Nat)]) = none) →
      ∀ x ∈ inorder (TTree.leaf [((1 : Int), [(10 : Nat)]), (5, [50])]), x.1 ≤ 3) ∧
    ∀ row, some ((1 : Int), [(10 : Nat)]) = some row →
      row ∈ inorder (TTree.leaf [((1 : Int), [(10 : Nat)]), (5, [50])]) ∧
      (row.1 ≤ 3 ∨ (3 < row.1 ∧
        ∀ x ∈ inorder (TTree.leaf [((1 : Int), [(10 : Nat)]), (5, [50])]),
          3 < x.1 → row.1 ≤ x.1)) :=
  c2_get_lands (TTree.leaf [((1 : Int), [(10 : Nat)]), (5, [50])]) 3 TWF_example
    (some (1, [10])) tableGet_example

/-- C2 counterexample: get(3) on the sorted table {1, 5} returns Some of the
row with row-id 1, although no row has row-id 3. -/
theorem c2_counterexample :
    tableGet (TTree.leaf [((1 : Int), [(10 : Nat)]), (5, [50])]) 3
      = some (some (1, [10])) ∧ ((1 : Int) ≠ 3) :=
  ⟨tableGet_example, by norm_num⟩

lemma indexYields_example :
    indexYields (fun _ => some Ordering.eq) (ITree.leaf [[1], [2]])
      = some [[1], [2]] := by
  unfold indexYields indexWithRange
  rw [show indexSeekGo (fun _ => some Ordering.eq) (ITree.leaf [[1], [2]]) []
      = some ⟨ITree.leaf [[1], [2]], 0, []⟩ from by
    rw [indexSeekGo]
    norm_num [prefLtCountL]
    decide]
  rw [Option.map_some', Option.some_inj, indexEntriesFrom_den]
  rfl

/-- C8: a table scan (with or without a range) yields strictly increasing
row-ids on any sorted tree, and an index scan yields a subsequence of the
scan order, so it inherits any ordering of that order. -/
theorem c8_iterator_sorted :
    (∀ (t : TTree) (sb eb : Option Int), TWF t none none →
      ∀ ys, tableRangeYields t sb eb = some ys →
        List.Pairwise (· < ·) (ys.map Prod.fst)) ∧
    ∀ (cmp : List Nat → Option Ordering) (t : ITree)
      (ilt : List Nat → List Nat → Prop),
      List.Pairwise ilt (inorderI t) →
      ∀ ys, indexYields cmp t = some ys → List.Pairwise ilt ys :=
  ⟨fun t sb eb hwf ys hys => tableYields_sorted t sb eb hwf ys hys,
    fun cmp t ilt hsor ys hys =>
      List.Pairwise.sublist (indexYields_sublist cmp t ys hys) hsor⟩

/-- C8 witness: the example range scan yields 1 < 5, and the example index
scan inherits the trivial ordering. -/
theorem c8_iterator_sorted_witness :
    List.Pairwise (· < ·) (([((1 : Int), [(10 : Nat)]), (5, [50])]).map Prod.fst) ∧
    List.Pairwise (fun _ _ => True) [[(1 : Nat)], [2]] :=
  ⟨c8_iterator_sorted.1 (TTree.leaf [((1 : Int), [(10 : Nat)]), (5, [50])])
      (some 3) (some 10) TWF_example [(1, [10]), (5, [50])] tableRangeYields_example,
    c8_iterator_sorted.2 (fun _ => some Ordering.eq) (ITree.leaf [[1], [2]])
      (fun _ _ => True)
      (List.Pairwise.cons (fun _ _ => trivial) (List.pairwise_singleton _ _))
      [[1], [2]] indexYields_example⟩

/-- C9: replacing every right-most subtree by an empty leaf changes no table
or index scan, so the subtree behind the right-most pointer is never
visited; the in-memory page header parses the right-most pointer as the
2-byte big-endian field at offset 8 of a 10-byte prefix, while the on-disk
interior header is 12 bytes (8 for leaves). -/
theorem c9_rightmost_unread :
    (∀ (t : TTree) (sb eb : Option Int),
      tableRangeYields (stripRight t) sb eb = tableRangeYields t sb eb) ∧
    (∀ (cmp : List Nat → Option Ordering) (t : ITree),
      indexYields cmp (stripRightI t) = indexYields cmp t) ∧
    (∀ (bytes : List Nat) (h : BTreePageHeader), readPageHeader bytes = some h →
      10 ≤ bytes.length ∧ h.rightMostPointer = beNat ((bytes.drop 8).take 2)) ∧
    BTreePageType.headerSize .interiorTable = 12 ∧
    BTreePageType.headerSize .leafTable = 8 :=
  ⟨tableRangeYields_stripRight, indexYields_stripRight, readPageHeader_rightMost,
    rfl, rfl⟩

/-- C9 witness: a concrete 10-byte header parses, and its right-most pointer
is the big-endian pair at offset 8. -/
theorem c9_rightmost_unread_witness :
    10 ≤ ([13, 0, 0, 0, 1, 0, 0, 0, 1, 2] : List Nat).length ∧
    (⟨13, 0, 1, 0, 0, 258⟩ : BTreePageHeader).rightMostPointer
      = beNat ((([13, 0, 0, 0, 1, 0, 0, 0, 1, 2] : List Nat).drop 8).take 2) :=
  c9_rightmost_unread.2.2.1 [13, 0, 0, 0, 1, 0, 0, 0, 1, 2] ⟨13, 0, 1, 0, 0, 258⟩
    (by decide)

/-- C10: insert always returns row id 1 and appends the encoded cell after
the existing cells without any ordering check; the appended cell parses back
to row id 1 and the encoded record, and a repeated insert again returns row
id 1. -/
theorem c10_insert_rowid_one (cells : List (List Nat)) (row row2 : List TypedValue)
    (hlen : (encodeTyped row).length < 2 ^ 62) :
    (tableInsert cells row).1 = 1 ∧
    (tableInsert cells row).2
      = cells ++ [Varint.write (((encodeTyped row).length : Nat) : Int)
          ++ Varint.write 1 ++ encodeTyped row] ∧
    leafTableCellParse (Varint.write (((encodeTyped row).length : Nat) : Int)
        ++ Varint.write 1 ++ encodeTyped row) = some (1, encodeTyped row) ∧
    (tableInsert (tableInsert cells row).2 row2).1 = 1 ∧
    (tableInsert (tableInsert cells row).2 row2).2
      = (tableInsert cells row).2
        ++ [Varint.write (((encodeTyped row2).length : Nat) : Int)
          ++ Varint.write 1 ++ encodeTyped row2] :=
  ⟨rfl, rfl, leafTableCellParse_one _ hlen, rfl, rfl⟩

lemma write_zero_val : Varint.write 0 = [0] := by decide

lemma write_two_val : Varint.write 2 = [2] := by
  have ht : (2 : Int).toNat = 2 := rfl
  have hb : bitLen 2 = 2 := by simp [bitLen, Nat.log2]
  simp only [Varint.write, absPat, leadingZeros64]
  norm_num [ht, hb, Varint.shortList_one, toU64]

lemma encodeTyped_null : encodeTyped [TypedValue.null] = [2, 0] := by
  have hcast : ((2 : Nat) : Int) = 2 := by norm_num
  have hcast1 : ((1 : Nat) : Int) = 1 := by norm_num
  have hh : headerValue 1 = 2 := by
    unfold headerValue
    simp only [headerLoop, hcast, write_two_val]
    norm_num
  show recordBytes [SerialValue.null] = [2, 0]
  simp only [recordBytes, SerialValue.serialType, SerialType.code, List.flatMap_cons,
    List.flatMap_nil, write_zero_val, SerialValue.writeBytes]
  norm_num [hh, hcast, write_two_val]

/-- C10 witness: inserting the one-column null row into the empty page. -/
theorem c10_insert_rowid_one_witness :
    (tableInsert [] [TypedValue.null]).1 = 1 ∧
    (tableInsert [] [TypedValue.null]).2
      = [] ++ [Varint.write (((encodeTyped [TypedValue.null]).length : Nat) : Int)
          ++ Varint.write 1 ++ encodeTyped [TypedValue.null]] ∧
    leafTableCellParse
        (Varint.write (((encodeTyped [TypedValue.null]).length : Nat) : Int)
          ++ Varint.write 1 ++ encodeTyped [TypedValue.null])
      = some (1, encodeTyped [TypedValue.null]) ∧
    (tableInsert (tableInsert [] [TypedValue.null]).2 [TypedValue.null]).1 = 1 ∧
    (tableInsert (tableInsert [] [TypedValue.null]).2 [TypedValue.null]).2
      = (tableInsert [] [TypedValue.null]).2
        ++ [Varint.write (((encodeTyped [TypedValue.null]).length : Nat) : Int)
          ++ Varint.write 1 ++ encodeTyped [TypedValue.null]] :=
  c10_insert_rowid_one [] [TypedValue.null] [TypedValue.null]
    (by rw [encodeTyped_null]; norm_num)

/-- C4 (corrected): decoding an encoded row returns exactly what the integer
serializer pushed; that agrees with the claim's narrowest-form normalisation
except at the five negative boundary values -2^7, -2^15, -2^23, -2^31,
-2^47, where the code picks the next wider integer form; and the
self-referential header varint satisfies the claimed fixpoint equation. -/
theorem c4_record_roundtrip (vs : List TypedValue) (hwf : ∀ tv ∈ vs, tv.wf)
    (hlen : vs.length ≤ 2 ^ 50) :
    decodeRecord (encodeTyped vs) = some (vs.map TypedValue.toSerial) ∧
    ((∀ v : Int, TypedValue.int v ∈ vs →
        v ≠ -(2 ^ 7) ∧ v ≠ -(2 ^ 15) ∧ v ≠ -(2 ^ 23) ∧ v ≠ -(2 ^ 31) ∧ v ≠ -(2 ^ 47)) →
      decodeRecord (encodeTyped vs) = some (normaliseSpec vs)) ∧
    headerValue ((vs.map TypedValue.toSerial).flatMap fun v =>
        Varint.write v.serialType.code).length
      = ((vs.map TypedValue.toSerial).flatMap fun v =>
          Varint.write v.serialType.code).length
        + (Varint.write ((headerValue ((vs.map TypedValue.toSerial).flatMap fun v =>
            Varint.write v.serialType.code).length : Nat) : Int)).length :=
  ⟨decode_encodeTyped vs hwf hlen,
    fun hnb => by
      rw [decode_encodeTyped vs hwf hlen, toSerial_eq_normalise vs hwf hnb],
    headerValue_exit _⟩

/-- C4 witness: the one-column row [5] decodes back to the Zero-free i8 form
and matches the normalisation. -/
theorem c4_record_roundtrip_witness :
    decodeRecord (encodeTyped [TypedValue.int 5])
      = some ([TypedValue.int 5].map TypedValue.toSerial) ∧
    ((∀ v : Int, TypedValue.int v ∈ [TypedValue.int 5] →
        v ≠ -(2 ^ 7) ∧ v ≠ -(2 ^ 15) ∧ v ≠ -(2 ^ 23) ∧ v ≠ -(2 ^ 31) ∧ v ≠ -(2 ^ 47)) →
      decodeRecord (encodeTyped [TypedValue.int 5])
        = some (normaliseSpec [TypedValue.int 5])) ∧
    headerValue (([TypedValue.int 5].map TypedValue.toSerial).flatMap fun v =>
        Varint.write v.serialType.code).length
      = (([TypedValue.int 5].map TypedValue.toSerial).flatMap fun v =>
          Varint.write v.serialType.code).length
        + (Varint.write ((headerValue (([TypedValue.int 5].map
            TypedValue.toSerial).flatMap fun v =>
            Varint.write v.serialType.code).length : Nat) : Int)).length :=
  c4_record_roundtrip [TypedValue.int 5]
    (by
      intro tv htv
      rw [List.mem_singleton] at htv
      subst htv
      exact ⟨by norm_num, by norm_num⟩)
    (by norm_num)

/-- C4 counterexample: the boundary value -128 fits i8, but the encoder
chooses i16, so decode of encode differs from the claimed normalisation. -/
theorem c4_counterexample :
    decodeRecord (encodeTyped [TypedValue.int (-128)])
      = some [SerialValue.i16 (-128)] ∧
    normaliseSpec [TypedValue.int (-128)] = [SerialValue.i8 (-128)] ∧
    ([SerialValue.i16 (-128)] : List SerialValue) ≠ [SerialValue.i8 (-128)] := by
  have h1 : absPat (-128) = 128 := by decide
  have h2 : bitLen 128 = 8 := by simp [bitLen, Nat.log2]
  have hs : serializeI64 (-128) = SerialValue.i16 (-128) := by
    simp only [serializeI64, h1, leadingZeros64, h2]
    norm_num
    decide
  refine ⟨?_, ?_, by decide⟩
  · have hd := decode_encodeTyped [TypedValue.int (-128)]
      (by
        intro tv htv
        rw [List.mem_singleton] at htv
        subst htv
        exact ⟨by norm_num, by norm_num⟩)
      (by norm_num)
    rw [hd, show ([TypedValue.int (-128)].map TypedValue.toSerial)
        = [serializeI64 (-128)] from rfl, hs]
  · simp only [normaliseSpec, List.map_cons, List.map_nil, narrowestSerial]
    norm_num

end Squeak
